import Mathlib

/-!
# lexd: data model of `lexdcompiler.h`

A shallow embedding of the value types declared in `src/lexdcompiler.h`
(`string_ref`, `token_t`, `lex_seg_t`, `RepeatMode`, `pattern_element_t`), of the
`std::set` helper templates (`subset`, `unionset`, `intersectset`, ...), and
of the comparison operators that make `pattern_element_t` usable as the key of
the fragment caches.

Conventions.
* `unsigned int` fields are natural numbers; the header only compares them, so
  no wrap-around arithmetic is involved.
* `std::set<T>` is the strictly ascending list of its elements (the order in
  which the container iterates), bundled with the proof that it is ascending.
* C++ member functions that mutate `*this` return the updated value.
-/

namespace Lexd

/-! ## `string_ref` (lexdcompiler.h:21-35) -/

/-- An interned name handle: `struct string_ref { unsigned int i; ... }`. -/
structure string_ref where
  i : Nat
deriving DecidableEq, Repr

namespace string_ref

/-- The default constructor `string_ref() : i(0) {}`. -/
def default : string_ref := ⟨0⟩

/-- Member `bool empty() const { return i == 0; }`. -/
def empty (h : string_ref) : Bool := h.i == 0

/-- Member `bool valid() const { return i != 0; }`. -/
def valid (h : string_ref) : Bool := h.i != 0

/-- Member `operator ==`: `return i == other.i;`. -/
def eq (h other : string_ref) : Bool := h.i == other.i

/-- Member `operator !=`: `return !(*this == other);`. -/
def ne (h other : string_ref) : Bool := !(eq h other)

/-- Member `operator <`: `return i < other.i;`. -/
def lt (h other : string_ref) : Bool := decide (h.i < other.i)

/-- Member `operator !`: `return empty();`. -/
def not (h : string_ref) : Bool := h.empty

/-- Member `operator ||`: `return i ? *this : other;`. -/
def or (h other : string_ref) : string_ref := if h.i != 0 then h else other

end string_ref

/-- The order `std::less<string_ref>` of `std::set<string_ref>`: the one of
`string_ref::operator<`, that is, of the underlying integers. -/
instance : LinearOrder string_ref :=
  LinearOrder.lift' string_ref.i (fun a b h => by cases a; cases b; cases h; rfl)

/-! ## `std::set<T>` and the helper templates (lexdcompiler.h:45-102) -/

section StdSet

variable {α : Type} [LinearOrder α]

/-- The search of `std::set::find`: is there an element equivalent to `x`
(neither smaller nor greater) in the ascending sequence? -/
def findIn (x : α) : List α → Bool
  | [] => false
  | y :: ys => if y < x then findIn x ys else if x < y then false else true

/-- Insertion of `std::set::insert(x)` on the ascending sequence: the key goes
to its place in the order, and nothing happens when an equivalent key is
already there. -/
def insertIn (x : α) : List α → List α
  | [] => [x]
  | y :: ys =>
    if x < y then x :: y :: ys
    else if y < x then y :: insertIn x ys
    else y :: ys

/-- Removal of `std::set::erase(x)` on the ascending sequence: the element
equivalent to `x`, if there is one, is dropped. -/
def eraseIn (x : α) : List α → List α
  | [] => []
  | y :: ys =>
    if y < x then y :: eraseIn x ys
    else if x < y then y :: ys
    else ys

/-- The algorithm `std::lexicographical_compare` with `operator<` on the
elements, which is what `operator<` of two `std::set`s runs. -/
def lexicographical_compare : List α → List α → Bool
  | _, [] => false
  | [], _ :: _ => true
  | x :: xs, y :: ys =>
    if x < y then true
    else if y < x then false
    else lexicographical_compare xs ys

/-- The algorithm `std::equal` over two ranges of the same length, with
`operator==` on the elements. -/
def rangeEqual : List α → List α → Bool
  | [], [] => true
  | x :: xs, y :: ys => decide (x = y) && rangeEqual xs ys
  | _, _ => false

end StdSet

/-- A `std::set<T>`: its elements in iteration order, strictly ascending. -/
structure set (α : Type) [LinearOrder α] where
  elems : List α
  sorted : elems.Sorted (· < ·)

namespace set

variable {α : Type} [LinearOrder α]

instance : Membership α (set α) where
  mem s x := x ∈ s.elems

instance (x : α) (s : set α) : Decidable (x ∈ s) :=
  inferInstanceAs (Decidable (x ∈ s.elems))

/-- The default-constructed, empty set. -/
def nil : set α := ⟨[], List.sorted_nil⟩

/-- Number of elements, `size()`. -/
def size (s : set α) : Nat := s.elems.length

/-- Emptiness test, `empty()`. -/
def empty (s : set α) : Bool := s.elems.isEmpty

/-- Lookup: `true` iff `s.find(x) != s.end()`. -/
def find (s : set α) (x : α) : Bool := findIn x s.elems

/-- Single-element `insert(x)`. -/
def insert (s : set α) (x : α) : set α :=
  ⟨insertIn x s.elems, by
    have key : ∀ l : List α, l.Sorted (· < ·) →
        (insertIn x l).Sorted (· < ·) ∧ ∀ z ∈ insertIn x l, z = x ∨ z ∈ l := by
      intro l
      induction l with
      | nil => intro _; simp [insertIn]
      | cons y ys ih =>
        intro hs
        have hy : ∀ b ∈ ys, y < b := (List.sorted_cons.1 hs).1
        have hys := (List.sorted_cons.1 hs).2
        unfold insertIn
        by_cases h1 : x < y
        · simp only [h1, if_true]
          refine ⟨List.sorted_cons.2 ⟨?_, hs⟩, ?_⟩
          · intro b hb
            rcases List.mem_cons.1 hb with rfl | hb
            · exact h1
            · exact lt_trans h1 (hy b hb)
          · intro z hz
            rcases List.mem_cons.1 hz with rfl | hz
            · exact Or.inl rfl
            · exact Or.inr hz
        · by_cases h2 : y < x
          · simp only [h1, h2, if_true, if_false]
            obtain ⟨ihs, ihm⟩ := ih hys
            refine ⟨List.sorted_cons.2 ⟨?_, ihs⟩, ?_⟩
            · intro b hb
              rcases ihm b hb with rfl | hb
              · exact h2
              · exact hy b hb
            · intro z hz
              rcases List.mem_cons.1 hz with rfl | hz
              · exact Or.inr (List.mem_cons_self _ _)
              · rcases ihm z hz with rfl | hz
                · exact Or.inl rfl
                · exact Or.inr (List.mem_cons_of_mem _ hz)
          · simp only [h1, h2, if_false]
            exact ⟨hs, fun z hz => Or.inr hz⟩
    exact (key s.elems s.sorted).1⟩

/-- Single-key `erase(x)`. -/
def erase (s : set α) (x : α) : set α :=
  ⟨eraseIn x s.elems, by
    have key : ∀ l : List α, List.Sublist (eraseIn x l) l := by
      intro l
      induction l with
      | nil => simp [eraseIn]
      | cons y ys ih =>
        unfold eraseIn
        split_ifs
        · exact ih.cons₂ y
        · exact List.Sublist.refl _
        · exact List.sublist_cons_self y ys
    exact s.sorted.sublist (key s.elems)⟩

/-- Range insertion `xs.insert(first, last)`: the elements of the range are
inserted one after the other. -/
def insertRange (s : set α) (range : List α) : set α :=
  range.foldl insert s

/-- Member `clear()`. -/
def clear (_ : set α) : set α := nil

/-- The comparison `operator<` of two sets: lexicographic on the ascending
sequences. -/
def lt (a b : set α) : Bool := lexicographical_compare a.elems b.elems

/-- The comparison `operator==` of two sets: equal sizes and pairwise equal
elements. -/
def eq (a b : set α) : Bool := a.size == b.size && rangeEqual a.elems b.elems

end set

section Helpers

variable {α : Type} [LinearOrder α]

/-- Helper `subset(xs, ys)` (lexdcompiler.h:45-54). -/
def subset (xs ys : set α) : Bool :=
  if xs.size > ys.size then false
  else xs.elems.all (fun x => ys.find x)

/-- Helper `subset_strict(xs, ys)` (lexdcompiler.h:56-62). -/
def subset_strict (xs ys : set α) : Bool :=
  if xs.size ≥ ys.size then false
  else subset xs ys

/-- Helper `unionset_inplace(xs, ys)` (lexdcompiler.h:72-77); returns the
updated `xs`. -/
def unionset_inplace (xs ys : set α) : set α :=
  xs.insertRange ys.elems

/-- Helper `unionset(xs, ys)` (lexdcompiler.h:64-70). -/
def unionset (xs ys : set α) : set α :=
  let u := xs
  unionset_inplace u ys

/-- Helper `intersectset(xs, ys)` (lexdcompiler.h:79-87): starting from a copy
of `xs`, every element of `xs` that `ys` lacks is erased. -/
def intersectset (xs ys : set α) : set α :=
  xs.elems.foldl (fun i x => if ys.find x then i else i.erase x) xs

/-- Helper `subtractset_inplace(xs, ys)` (lexdcompiler.h:97-102); returns the
updated `xs`. -/
def subtractset_inplace (xs ys : set α) : set α :=
  ys.elems.foldl (fun acc y => acc.erase y) xs

/-- Helper `subtractset(xs, ys)` (lexdcompiler.h:89-95). -/
def subtractset (xs ys : set α) : set α :=
  let i := xs
  subtractset_inplace i ys

end Helpers

/-! ## Tokens and lexicon segments (lexdcompiler.h:106-143) -/

/-- A lexicon-or-pattern reference: `struct token_t { string_ref name;
unsigned int part; ... }`. -/
structure token_t where
  name : string_ref
  part : Nat
deriving DecidableEq, Repr

namespace token_t

/-- Member `operator<`:
`return name < t.name || (name == t.name && part < t.part);`. -/
def lt (a t : token_t) : Bool :=
  a.name.lt t.name || (a.name.eq t.name && decide (a.part < t.part))

/-- Member `operator==`: `return name == t.name && part == t.part;`. -/
def eq (a t : token_t) : Bool :=
  a.name.eq t.name && a.part == t.part

end token_t

/-- An automaton symbol handle: `struct trans_sym_t { int i; ... }`. -/
structure trans_sym_t where
  i : Int
deriving DecidableEq, Repr

/-- One side of a segment: `struct lex_token_t { vector<trans_sym_t> symbols; }`. -/
structure lex_token_t where
  symbols : List trans_sym_t
deriving DecidableEq, Repr

/-- A column slice of an entry: `struct lex_seg_t { lex_token_t left, right;
set<string_ref> tags; ... }`. -/
structure lex_seg_t where
  left : lex_token_t
  right : lex_token_t
  tags : set string_ref

/-! ## `RepeatMode` (lexdcompiler.h:145-154) -/

/-- A value of the unscoped enumeration `RepeatMode`, as its integer. -/
structure RepeatMode where
  val : Nat
deriving DecidableEq, Repr

namespace RepeatMode

/-- Enumerator `Optional = 1`. -/
def Optional : RepeatMode := ⟨1⟩
/-- Enumerator `Repeated = 2`. -/
def Repeated : RepeatMode := ⟨2⟩
/-- Enumerator `Normal = 0`. -/
def Normal : RepeatMode := ⟨0⟩
/-- Enumerator `Question = 1`. -/
def Question : RepeatMode := ⟨1⟩
/-- Enumerator `Plus = 2`. -/
def Plus : RepeatMode := ⟨2⟩
/-- Enumerator `Star = 3`. -/
def Star : RepeatMode := ⟨3⟩

/-- The bitwise `m | n` on the enumeration's integers. -/
def bitor (m n : RepeatMode) : RepeatMode := ⟨m.val ||| n.val⟩

/-- The flag test `(m & flag) != 0`. -/
def has (m flag : RepeatMode) : Bool := (m.val &&& flag.val) != 0

/-- The four modes the enumeration names. -/
def modes : List RepeatMode := [Normal, Question, Plus, Star]

end RepeatMode

/-! ## `pattern_element_t` (lexdcompiler.h:156-186) -/

/-- A pattern element: `struct pattern_element_t { token_t left, right;
set<string_ref> tags, negtags; RepeatMode mode; ... }`. -/
structure pattern_element_t where
  left : token_t
  right : token_t
  tags : set string_ref
  negtags : set string_ref
  mode : RepeatMode

namespace pattern_element_t

/-- Member `operator<` (lexdcompiler.h:161-164), disjunct by disjunct. -/
def lt (a o : pattern_element_t) : Bool :=
  a.left.lt o.left
  || (a.left.eq o.left && a.right.lt o.right)
  || (a.left.eq o.left && a.right.eq o.right && decide (a.mode.val < o.mode.val))
  || (a.left.eq o.left && a.right.eq o.right && a.mode.val == o.mode.val
        && a.tags.lt o.tags)
  || (a.left.eq o.left && a.right.eq o.right && a.mode.val == o.mode.val
        && a.tags.eq o.tags && a.negtags.lt o.negtags)

/-- Member `operator==` (lexdcompiler.h:166-169). -/
def eq (a o : pattern_element_t) : Bool :=
  a.left.eq o.left && a.right.eq o.right && a.mode.val == o.mode.val
    && a.tags.eq o.tags && a.negtags.eq o.negtags

/-- Member `addTags(tok)`: `tags.insert(tok.tags.begin(), tok.tags.end());`. -/
def addTags (e tok : pattern_element_t) : pattern_element_t :=
  { e with tags := e.tags.insertRange tok.tags.elems }

/-- Member `addNegTags(tok)`:
`negtags.insert(tok.negtags.begin(), tok.negtags.end());`. -/
def addNegTags (e tok : pattern_element_t) : pattern_element_t :=
  { e with negtags := e.negtags.insertRange tok.negtags.elems }

/-- Member `clearTags()`: `tags.clear(); negtags.clear();`. -/
def clearTags (e : pattern_element_t) : pattern_element_t :=
  { e with tags := e.tags.clear, negtags := e.negtags.clear }

/-- Modelled from the spec: the body of `pattern_element_t::compatible`, which
the header only declares (lexdcompiler.h:171). The spec asks that the
segment's tag set be a superset of the element's required tags and disjoint
from the element's forbidden tags; both tests are run with the header's own
helpers `subset` and `intersectset`. -/
def compatible (e : pattern_element_t) (tok : lex_seg_t) : Bool :=
  subset e.tags tok.tags && (intersectset e.negtags tok.tags).empty

end pattern_element_t

/-- The invariant of the data model: no tag of the element is both required
and forbidden. -/
def disjointTags (e : pattern_element_t) : Prop :=
  ∀ t ∈ e.tags.elems, t ∉ e.negtags.elems

instance (e : pattern_element_t) : Decidable (disjointTags e) :=
  inferInstanceAs (Decidable (∀ t ∈ e.tags.elems, t ∉ e.negtags.elems))

/-- The key under which `std::map<pattern_element_t, V>` stores an element:
two keys are the same entry when neither is smaller than the other. -/
def sameKey (a b : pattern_element_t) : Bool := !(a.lt b) && !(b.lt a)

/-- The tuple `(left.name.i, left.part, right.name.i, right.part, mode, tags,
negtags)` of a pattern element, the tag sets as ascending sequences of
integers. -/
def pattern_element_t.key (a : pattern_element_t) :
    Nat × Nat × Nat × Nat × Nat × List Nat × List Nat :=
  (a.left.name.i, a.left.part, a.right.name.i, a.right.part, a.mode.val,
    a.tags.elems.map string_ref.i, a.negtags.elems.map string_ref.i)

/-- The lexicographic order on such tuples: integers by `<`, sequences of
integers lexicographically. -/
def keyLt : (Nat × Nat × Nat × Nat × Nat × List Nat × List Nat) →
    (Nat × Nat × Nat × Nat × Nat × List Nat × List Nat) → Prop :=
  Prod.Lex (· < ·) (Prod.Lex (· < ·) (Prod.Lex (· < ·) (Prod.Lex (· < ·)
    (Prod.Lex (· < ·) (Prod.Lex (List.Lex (· < ·)) (List.Lex (· < ·)))))))

/-! ## The symbol interner (lexdcompiler.h:211-214, 248) -/

/-- A name, `icu::UnicodeString`, as its sequence of UTF-16 code units. -/
abbrev UnicodeString := List Nat

/-- The interner state of `LexdCompiler`: the members
`map<UnicodeString, string_ref> name_to_id` (as the list of its bindings) and
`vector<UnicodeString> id_to_name`. -/
structure Interner where
  name_to_id : List (UnicodeString × string_ref)
  id_to_name : List UnicodeString
deriving DecidableEq, Repr

namespace Interner

/-- Modelled from the spec: the interner state a compilation starts from; the
constructor of `LexdCompiler` is only declared in the header. Handle `0` is
reserved: slot `0` of `id_to_name` is taken and no name is bound to it. -/
def init : Interner :=
  { name_to_id := [], id_to_name := [[]] }

/-- Modelled from the spec: the body of `LexdCompiler::internName`, which the
header only declares. It returns the existing handle if the name was seen
before, else allocates the next integer and records the mapping both ways.
The result is the handle together with the updated state. -/
def internName (c : Interner) (name : UnicodeString) : string_ref × Interner :=
  match c.name_to_id.lookup name with
  | some h => (h, c)
  | none =>
    let h : string_ref := ⟨c.id_to_name.length⟩
    (h, { name_to_id := (name, h) :: c.name_to_id,
          id_to_name := c.id_to_name ++ [name] })

/-- Modelled from the spec: the body of `LexdCompiler::name`, which the header
only declares: the inverse of interning, defined on the handles handed out
(`none` stands for a handle outside the table). -/
def name (c : Interner) (r : string_ref) : Option UnicodeString :=
  c.id_to_name[r.i]?

/-- The state after a sequence of `internName` calls. -/
def run (c : Interner) (names : List UnicodeString) : Interner :=
  names.foldl (fun st n => (internName st n).2) c

end Interner

/-- Well-formed interner states: slot `0` is taken, every bound handle is
non-zero and resolves back to its name. -/
def Interner.WF (c : Interner) : Prop :=
  0 < c.id_to_name.length ∧
  ∀ n h, c.name_to_id.lookup n = some h → h.i ≠ 0 ∧ c.id_to_name[h.i]? = some n

/-! ## Repeat modes on automaton fragments (lexdcompiler.h:261) -/

/-- A transition: source state, left symbol, right symbol, target state; a
side without a symbol (`none`) reads or writes nothing, and a transition with
no symbol on either side is an epsilon transition. -/
structure Edge where
  src : Nat
  left : Option trans_sym_t
  right : Option trans_sym_t
  dst : Nat
deriving DecidableEq, Repr

/-- Modelled from the spec: an automaton fragment of the finite-state library
(`Transducer`, not part of the header): an entry state, an exit state and
labelled transitions. -/
structure Transducer where
  initial : Nat
  final : Nat
  transitions : List Edge
deriving DecidableEq, Repr

/-- A pairing: the left and the right symbol sequence of one accepted pair. -/
abbrev Pairing := List trans_sym_t × List trans_sym_t

namespace Pairing

/-- The empty pairing. -/
def nil : Pairing := ([], [])

/-- Concatenation of two pairings, side by side. -/
def append (p q : Pairing) : Pairing := (p.1 ++ q.1, p.2 ++ q.2)

/-- Concatenation of a sequence of pairings. -/
def concat : List Pairing → Pairing
  | [] => nil
  | p :: ps => append p (concat ps)

end Pairing

namespace Transducer

/-- The epsilon transition from `s` to `d`. -/
def epsilonEdge (s d : Nat) : Edge := ⟨s, none, none, d⟩

/-- The fragment with one more transition. -/
def linkStates (t : Transducer) (e : Edge) : Transducer :=
  { t with transitions := e :: t.transitions }

/-- Is `es` a chain of transitions of `t` leading from state `s` to state `d`? -/
def isPath (t : Transducer) : Nat → List Edge → Nat → Bool
  | s, [], d => s == d
  | s, e :: es, d => decide (e ∈ t.transitions) && e.src == s && isPath t e.dst es d

/-- The pairing a chain of transitions spells. -/
def yield (es : List Edge) : Pairing :=
  (es.filterMap Edge.left, es.filterMap Edge.right)

/-- The fragment accepts a pairing when a chain of its transitions from the
entry state to the exit state spells it. -/
def accepts (t : Transducer) (p : Pairing) : Prop :=
  ∃ es, isPath t t.initial es t.final = true ∧ yield es = p

/-- Modelled from the spec: the body of `LexdCompiler::applyMode`, which the
header only declares. Normal: unchanged. Optional (`Question`): an epsilon
bypass from the entry to the exit state. `Plus`: a back-edge from the exit to
the entry state. `Star`: both. -/
def applyMode (trans : Transducer) (mode : RepeatMode) : Transducer :=
  if mode = RepeatMode.Question then
    trans.linkStates (epsilonEdge trans.initial trans.final)
  else if mode = RepeatMode.Plus then
    trans.linkStates (epsilonEdge trans.final trans.initial)
  else if mode = RepeatMode.Star then
    (trans.linkStates (epsilonEdge trans.initial trans.final)).linkStates
      (epsilonEdge trans.final trans.initial)
  else trans

/-- A fragment in which no transition enters the entry state and no transition
leaves the exit state. -/
def proper (t : Transducer) : Prop :=
  ∀ e ∈ t.transitions, e.dst ≠ t.initial ∧ e.src ≠ t.final

instance (t : Transducer) : Decidable (proper t) :=
  inferInstanceAs (Decidable (∀ e ∈ t.transitions, e.dst ≠ t.initial ∧ e.src ≠ t.final))

end Transducer

/-! ## Sample values -/

/-- The tag set holding the handles with the given integers. -/
def tagSet (tags : List Nat) : set string_ref :=
  (set.nil).insertRange (tags.map string_ref.mk)

/-- A pattern element whose two tokens are both `(name, part)`. -/
def sampleElement (name part : Nat) (mode : RepeatMode) (tags negtags : List Nat) :
    pattern_element_t :=
  { left := ⟨⟨name⟩, part⟩, right := ⟨⟨name⟩, part⟩,
    tags := tagSet tags, negtags := tagSet negtags, mode := mode }

/-- A fragment with the single transition `0 --1:2--> 1`. -/
def sampleFragment : Transducer :=
  { initial := 0, final := 1, transitions := [⟨0, some ⟨1⟩, some ⟨2⟩, 1⟩] }

/-- A fragment whose exit state has an outgoing transition:
`0 --1:1--> 1` and the loop `1 --2:2--> 1`. -/
def exitLoopFragment : Transducer :=
  { initial := 0, final := 1,
    transitions := [⟨0, some ⟨1⟩, some ⟨1⟩, 1⟩, ⟨1, some ⟨2⟩, some ⟨2⟩, 1⟩] }

/-- A fragment whose entry state has an incoming transition:
the loop `0 --2:2--> 0` and `0 --1:1--> 1`. -/
def entryLoopFragment : Transducer :=
  { initial := 0, final := 1,
    transitions := [⟨0, some ⟨2⟩, some ⟨2⟩, 0⟩, ⟨0, some ⟨1⟩, some ⟨1⟩, 1⟩] }

/-! ## Facts about the `std::set` model -/

section StdSetFacts

variable {α : Type} [LinearOrder α]

theorem set_ext_elems {a b : set α} (h : a.elems = b.elems) : a = b := by
  cases a; cases b; cases h; rfl

theorem set_mem_def (s : set α) (x : α) : x ∈ s ↔ x ∈ s.elems := Iff.rfl

theorem findIn_iff (x : α) :
    ∀ l : List α, l.Sorted (· < ·) → (findIn x l = true ↔ x ∈ l) := by
  intro l
  induction l with
  | nil => intro _; simp [findIn]
  | cons y ys ih =>
    intro hs
    have hy : ∀ b ∈ ys, y < b := (List.sorted_cons.1 hs).1
    have hys := (List.sorted_cons.1 hs).2
    unfold findIn
    by_cases h1 : y < x
    · simp only [h1, if_true, ih hys, List.mem_cons]
      constructor
      · exact Or.inr
      · rintro (rfl | h)
        · exact absurd h1 (lt_irrefl _)
        · exact h
    · by_cases h2 : x < y
      · simp only [h1, h2, if_true, if_false, List.mem_cons]
        constructor
        · intro h; cases h
        · rintro (rfl | h)
          · exact absurd h2 (lt_irrefl _)
          · exact absurd (lt_trans h2 (hy x h)) (lt_irrefl _)
      · have hxy : x = y := le_antisymm (not_lt.1 h1) (not_lt.1 h2)
        simp [h1, h2, hxy]

theorem mem_insertIn (x z : α) :
    ∀ l : List α, z ∈ insertIn x l ↔ z = x ∨ z ∈ l := by
  intro l
  induction l with
  | nil => simp [insertIn]
  | cons y ys ih =>
    unfold insertIn
    by_cases h1 : x < y
    · simp [h1]
    · by_cases h2 : y < x
      · simp only [h1, h2, if_true, if_false, List.mem_cons, ih]
        tauto
      · have hxy : x = y := le_antisymm (not_lt.1 h2) (not_lt.1 h1)
        subst hxy
        simp only [h1, if_false, List.mem_cons]
        tauto

theorem mem_eraseIn (x z : α) :
    ∀ l : List α, l.Sorted (· < ·) → (z ∈ eraseIn x l ↔ z ∈ l ∧ z ≠ x) := by
  intro l
  induction l with
  | nil => intro _; simp [eraseIn]
  | cons y ys ih =>
    intro hs
    have hy : ∀ b ∈ ys, y < b := (List.sorted_cons.1 hs).1
    have hys := (List.sorted_cons.1 hs).2
    unfold eraseIn
    by_cases h1 : y < x
    · simp only [h1, if_true, List.mem_cons, ih hys]
      constructor
      · rintro (rfl | ⟨h, hne⟩)
        · exact ⟨Or.inl rfl, ne_of_lt h1⟩
        · exact ⟨Or.inr h, hne⟩
      · rintro ⟨rfl | h, hne⟩
        · exact Or.inl rfl
        · exact Or.inr ⟨h, hne⟩
    · by_cases h2 : x < y
      · simp only [h1, h2, if_true, if_false, List.mem_cons]
        constructor
        · rintro (rfl | h)
          · exact ⟨Or.inl rfl, ne_of_gt h2⟩
          · exact ⟨Or.inr h, ne_of_gt (lt_trans h2 (hy z h))⟩
        · exact fun h => h.1
      · have hxy : x = y := le_antisymm (not_lt.1 h1) (not_lt.1 h2)
        subst hxy
        simp only [h1, if_false, List.mem_cons]
        constructor
        · intro h
          exact ⟨Or.inr h, ne_of_gt (hy z h)⟩
        · rintro ⟨rfl | h, hne⟩
          · exact absurd rfl hne
          · exact h

theorem set_find_iff (s : set α) (x : α) : s.find x = true ↔ x ∈ s :=
  findIn_iff x s.elems s.sorted

theorem set_mem_insert (s : set α) (x z : α) : z ∈ s.insert x ↔ z = x ∨ z ∈ s :=
  mem_insertIn x z s.elems

theorem set_mem_erase (s : set α) (x z : α) : z ∈ s.erase x ↔ z ∈ s ∧ z ≠ x :=
  mem_eraseIn x z s.elems s.sorted

theorem set_mem_insertRange (z : α) :
    ∀ (range : List α) (s : set α), z ∈ s.insertRange range ↔ z ∈ s ∨ z ∈ range := by
  intro range
  induction range with
  | nil => intro s; simp [set.insertRange]
  | cons y ys ih =>
    intro s
    have step : s.insertRange (y :: ys) = (s.insert y).insertRange ys := rfl
    rw [step, ih, set_mem_insert, List.mem_cons]
    tauto

theorem set_empty_iff (s : set α) : s.empty = true ↔ ∀ x, x ∉ s := by
  cases s with
  | mk l hl =>
    cases l with
    | nil => simp [set.empty, set_mem_def]
    | cons y ys =>
      simp only [set.empty, List.isEmpty_cons, set_mem_def]
      constructor
      · intro h; cases h
      · intro h
        exact absurd (List.mem_cons_self y ys) (h y)

theorem set_nodup (s : set α) : s.elems.Nodup :=
  s.sorted.imp (fun h => ne_of_lt h)

theorem set_size_le_of_subset (xs ys : set α) (h : ∀ x, x ∈ xs → x ∈ ys) :
    xs.size ≤ ys.size :=
  ((set_nodup xs).subperm (fun x hx => h x hx)).length_le

theorem subset_iff (xs ys : set α) : subset xs ys = true ↔ ∀ x, x ∈ xs → x ∈ ys := by
  unfold subset
  constructor
  · intro h
    split_ifs at h with hsz
    intro x hx
    exact (set_find_iff ys x).1 (List.all_eq_true.1 h x hx)
  · intro h
    have hsz : ¬ xs.size > ys.size := not_lt.2 (set_size_le_of_subset xs ys h)
    rw [if_neg hsz]
    exact List.all_eq_true.2 (fun x hx => (set_find_iff ys x).2 (h x hx))

theorem mem_intersect_fold (ys : set α) (z : α) :
    ∀ (l : List α) (i : set α),
      z ∈ l.foldl (fun i x => if ys.find x then i else i.erase x) i ↔
        z ∈ i ∧ (z ∈ l → z ∈ ys) := by
  intro l
  induction l with
  | nil => intro i; simp
  | cons y l ih =>
    intro i
    rw [List.foldl_cons, ih]
    by_cases hy : ys.find y = true
    · have hmem := (set_find_iff ys y).1 hy
      simp only [hy, if_true, List.mem_cons]
      constructor
      · rintro ⟨hi, hl⟩
        refine ⟨hi, ?_⟩
        rintro (rfl | h)
        · exact hmem
        · exact hl h
      · rintro ⟨hi, hl⟩
        exact ⟨hi, fun h => hl (Or.inr h)⟩
    · have hmem : y ∉ ys := fun h => hy ((set_find_iff ys y).2 h)
      have hy' : ys.find y = false := by simpa using hy
      simp only [hy', Bool.false_eq_true, if_false, List.mem_cons, set_mem_erase]
      constructor
      · rintro ⟨⟨hi, hne⟩, hl⟩
        refine ⟨hi, ?_⟩
        rintro (rfl | h)
        · exact absurd rfl hne
        · exact hl h
      · rintro ⟨hi, hl⟩
        refine ⟨⟨hi, ?_⟩, fun h => hl (Or.inr h)⟩
        rintro rfl
        exact hmem (hl (Or.inl rfl))

theorem mem_intersectset (xs ys : set α) (z : α) :
    z ∈ intersectset xs ys ↔ z ∈ xs ∧ z ∈ ys := by
  unfold intersectset
  rw [mem_intersect_fold]
  constructor
  · rintro ⟨h1, h2⟩
    exact ⟨h1, h2 h1⟩
  · rintro ⟨h1, h2⟩
    exact ⟨h1, fun _ => h2⟩

theorem intersectset_empty_iff (xs ys : set α) :
    (intersectset xs ys).empty = true ↔ ∀ x, x ∈ xs → x ∉ ys := by
  rw [set_empty_iff]
  constructor
  · intro h x hx hy
    exact h x ((mem_intersectset xs ys x).2 ⟨hx, hy⟩)
  · intro h x hx
    have := (mem_intersectset xs ys x).1 hx
    exact h x this.1 this.2

end StdSetFacts

/-! ## Facts about the comparison operators -/

section CompareFacts

variable {α : Type} [LinearOrder α]

theorem lexicographical_compare_iff :
    ∀ l l' : List α, lexicographical_compare l l' = true ↔ List.Lex (· < ·) l l' := by
  intro l
  induction l with
  | nil =>
    intro l'
    cases l' with
    | nil => simp [lexicographical_compare, List.Lex.not_nil_right]
    | cons y ys => simp [lexicographical_compare, List.Lex.nil]
  | cons x xs ih =>
    intro l'
    cases l' with
    | nil => simp [lexicographical_compare, List.Lex.not_nil_right]
    | cons y ys =>
      unfold lexicographical_compare
      by_cases h1 : x < y
      · simp only [h1, if_true, true_iff]
        exact List.Lex.rel h1
      · by_cases h2 : y < x
        · simp only [h1, h2, if_true, if_false, Bool.false_eq_true, false_iff]
          intro h
          cases h with
          | cons h => exact lt_irrefl _ h2
          | rel h => exact h1 h
        · have hxy : x = y := le_antisymm (not_lt.1 h2) (not_lt.1 h1)
          subst hxy
          simp only [h1, if_false, ih ys, List.Lex.cons_iff]

theorem rangeEqual_iff : ∀ l l' : List α, rangeEqual l l' = true ↔ l = l' := by
  intro l
  induction l with
  | nil =>
    intro l'
    cases l' <;> simp [rangeEqual]
  | cons x xs ih =>
    intro l'
    cases l' with
    | nil => simp [rangeEqual]
    | cons y ys => simp [rangeEqual, ih ys]

theorem set_eq_iff (a b : set α) : a.eq b = true ↔ a = b := by
  unfold set.eq
  rw [Bool.and_eq_true, rangeEqual_iff]
  constructor
  · rintro ⟨_, h⟩
    exact set_ext_elems h
  · rintro rfl
    exact ⟨by simp, rfl⟩

theorem set_lt_iff (a b : set α) : a.lt b = true ↔ List.Lex (· < ·) a.elems b.elems :=
  lexicographical_compare_iff a.elems b.elems

theorem string_ref_lt_def (a b : string_ref) : a < b ↔ a.i < b.i := Iff.rfl

theorem string_ref_i_injective : Function.Injective string_ref.i := by
  intro a b h
  cases a; cases b; cases h; rfl

theorem lex_cons_cons_iff {β : Type} (r : β → β → Prop) (a b : β) (l₁ l₂ : List β) :
    List.Lex r (a :: l₁) (b :: l₂) ↔ r a b ∨ (a = b ∧ List.Lex r l₁ l₂) := by
  constructor
  · intro h
    cases h with
    | cons h => exact Or.inr ⟨rfl, h⟩
    | rel h => exact Or.inl h
  · rintro (h | ⟨rfl, h⟩)
    · exact List.Lex.rel h
    · exact List.Lex.cons h

theorem lex_map_i : ∀ l l' : List string_ref,
    List.Lex (· < ·) (l.map string_ref.i) (l'.map string_ref.i) ↔ List.Lex (· < ·) l l' := by
  intro l
  induction l with
  | nil =>
    intro l'
    cases l' with
    | nil => simp [List.Lex.not_nil_right]
    | cons y ys => simp [List.Lex.nil]
  | cons x xs ih =>
    intro l'
    cases l' with
    | nil => simp [List.Lex.not_nil_right]
    | cons y ys =>
      simp only [List.map_cons]
      rw [lex_cons_cons_iff, lex_cons_cons_iff, ih ys, string_ref_lt_def]
      constructor
      · rintro (h | ⟨h1, h2⟩)
        · exact Or.inl h
        · exact Or.inr ⟨string_ref_i_injective h1, h2⟩
      · rintro (h | ⟨h1, h2⟩)
        · exact Or.inl h
        · exact Or.inr ⟨by rw [h1], h2⟩

end CompareFacts

theorem string_ref_eq_iff (a b : string_ref) : a.eq b = true ↔ a = b := by
  unfold string_ref.eq
  rw [beq_iff_eq]
  exact ⟨fun h => string_ref_i_injective h, fun h => by rw [h]⟩

theorem string_ref_lt_iff (a b : string_ref) : a.lt b = true ↔ a.i < b.i := by
  unfold string_ref.lt
  exact decide_eq_true_iff

theorem token_t_eq_iff (a b : token_t) : a.eq b = true ↔ a = b := by
  unfold token_t.eq
  rw [Bool.and_eq_true, string_ref_eq_iff, beq_iff_eq]
  constructor
  · rintro ⟨h1, h2⟩
    cases a; cases b; cases h1; cases h2; rfl
  · rintro rfl
    exact ⟨rfl, rfl⟩

theorem token_t_lt_iff (a b : token_t) :
    a.lt b = true ↔ a.name.i < b.name.i ∨ (a.name.i = b.name.i ∧ a.part < b.part) := by
  unfold token_t.lt
  rw [Bool.or_eq_true, Bool.and_eq_true, string_ref_lt_iff, decide_eq_true_iff]
  unfold string_ref.eq
  rw [beq_iff_eq]

theorem token_t_eq_iff_fields (a b : token_t) :
    a.eq b = true ↔ a.name.i = b.name.i ∧ a.part = b.part := by
  unfold token_t.eq string_ref.eq
  rw [Bool.and_eq_true, beq_iff_eq, beq_iff_eq]

theorem set_eq_iff_map (a b : set string_ref) :
    a.eq b = true ↔ a.elems.map string_ref.i = b.elems.map string_ref.i := by
  rw [set_eq_iff]
  constructor
  · rintro rfl
    rfl
  · intro h
    exact set_ext_elems (List.map_injective_iff.2 string_ref_i_injective h)

theorem set_lt_iff_map (a b : set string_ref) :
    a.lt b = true ↔
      List.Lex (· < ·) (a.elems.map string_ref.i) (b.elems.map string_ref.i) := by
  rw [set_lt_iff, lex_map_i]

theorem pattern_element_t_eq_iff_key (a b : pattern_element_t) :
    a.eq b = true ↔ a.key = b.key := by
  unfold pattern_element_t.eq pattern_element_t.key
  simp only [Bool.and_eq_true, token_t_eq_iff_fields, set_eq_iff_map, beq_iff_eq,
    Prod.mk.injEq]
  tauto

theorem pattern_element_t_key_injective (a b : pattern_element_t)
    (h : a.key = b.key) : a = b := by
  have hm : ∀ x y : set string_ref,
      x.elems.map string_ref.i = y.elems.map string_ref.i → x = y :=
    fun x y hxy => set_ext_elems (List.map_injective_iff.2 string_ref_i_injective hxy)
  unfold pattern_element_t.key at h
  simp only [Prod.mk.injEq] at h
  obtain ⟨h1, h2, h3, h4, h5, h6, h7⟩ := h
  cases a with
  | mk al ar at_ an am =>
    cases b with
    | mk bl br bt bn bm =>
      cases al with
      | mk aln alp =>
        cases bl with
        | mk bln blp =>
          cases ar with
          | mk arn arp =>
            cases br with
            | mk brn brp =>
              cases aln; cases bln; cases arn; cases brn; cases am; cases bm
              simp only at h1 h2 h3 h4 h5
              subst h1 h2 h3 h4 h5
              have e6 := hm _ _ h6
              have e7 := hm _ _ h7
              simp only at e6 e7
              subst e6 e7
              rfl

theorem pattern_element_t_eq_iff (a b : pattern_element_t) :
    a.eq b = true ↔ a = b := by
  rw [pattern_element_t_eq_iff_key]
  constructor
  · exact pattern_element_t_key_injective a b
  · rintro rfl
    rfl

theorem lex5_flat (tl te tr re m me T Te N : Prop) :
    ((((tl ∨ (te ∧ tr)) ∨ ((te ∧ re) ∧ m)) ∨ (((te ∧ re) ∧ me) ∧ T)) ∨
        ((((te ∧ re) ∧ me) ∧ Te) ∧ N)) ↔
      tl ∨ (te ∧ (tr ∨ (re ∧ (m ∨ (me ∧ (T ∨ (Te ∧ N))))))) := by
  tauto

theorem tok_nest (n e p q X : Prop) :
    (n ∨ (e ∧ p)) ∨ ((e ∧ q) ∧ X) ↔ n ∨ (e ∧ (p ∨ (q ∧ X))) := by
  tauto

theorem pattern_element_t_lt_iff_key (a b : pattern_element_t) :
    a.lt b = true ↔ keyLt a.key b.key := by
  unfold pattern_element_t.lt keyLt pattern_element_t.key
  simp only [Bool.or_eq_true, Bool.and_eq_true, beq_iff_eq, decide_eq_true_iff, Prod.lex_def]
  rw [lex5_flat]
  simp only [token_t_lt_iff, token_t_eq_iff_fields, set_eq_iff_map, set_lt_iff_map]
  rw [tok_nest, tok_nest]

theorem keyLt_irrefl (k : Nat × Nat × Nat × Nat × Nat × List Nat × List Nat) :
    ¬ keyLt k k := by
  unfold keyLt
  exact irrefl k

theorem keyLt_trans {k l m : Nat × Nat × Nat × Nat × Nat × List Nat × List Nat}
    (h1 : keyLt k l) (h2 : keyLt l m) : keyLt k m := by
  unfold keyLt at *
  exact IsTrans.trans _ _ _ h1 h2

theorem keyLt_trichotomous (k l : Nat × Nat × Nat × Nat × Nat × List Nat × List Nat) :
    keyLt k l ∨ k = l ∨ keyLt l k := by
  unfold keyLt
  exact trichotomous k l

theorem pattern_element_t_lt_irrefl (a : pattern_element_t) : a.lt a = false := by
  cases h : a.lt a with
  | false => rfl
  | true => exact absurd ((pattern_element_t_lt_iff_key a a).1 h) (keyLt_irrefl _)

theorem pattern_element_t_lt_trans (a b c : pattern_element_t)
    (h1 : a.lt b = true) (h2 : b.lt c = true) : a.lt c = true :=
  (pattern_element_t_lt_iff_key a c).2
    (keyLt_trans ((pattern_element_t_lt_iff_key a b).1 h1)
      ((pattern_element_t_lt_iff_key b c).1 h2))

theorem pattern_element_t_lt_asymm (a b : pattern_element_t)
    (h1 : a.lt b = true) : b.lt a = false := by
  cases h : b.lt a with
  | false => rfl
  | true =>
    have := pattern_element_t_lt_trans a b a h1 h
    rw [pattern_element_t_lt_irrefl] at this
    cases this

theorem pattern_element_t_lt_trichotomy (a b : pattern_element_t) :
    a.lt b = true ∨ a = b ∨ b.lt a = true := by
  rcases keyLt_trichotomous a.key b.key with h | h | h
  · exact Or.inl ((pattern_element_t_lt_iff_key a b).2 h)
  · exact Or.inr (Or.inl (pattern_element_t_key_injective a b h))
  · exact Or.inr (Or.inr ((pattern_element_t_lt_iff_key b a).2 h))


/-! ## Facts about the interner -/

theorem Interner_wf_init : Interner.init.WF := by
  refine ⟨by decide, ?_⟩
  intro n h hl
  simp [Interner.init] at hl

theorem Interner_internName_bound (c : Interner) (n : UnicodeString) :
    (c.internName n).2.name_to_id.lookup n = some (c.internName n).1 := by
  unfold Interner.internName
  cases h : c.name_to_id.lookup n with
  | some x => simpa using h
  | none => simp [List.lookup_cons]

theorem Interner_internName_keeps (c : Interner) (n m : UnicodeString) (h : string_ref)
    (hm : c.name_to_id.lookup m = some h) :
    (c.internName n).2.name_to_id.lookup m = some h := by
  unfold Interner.internName
  cases hn : c.name_to_id.lookup n with
  | some x => simpa using hm
  | none =>
    have hne : (m == n) = false := by
      cases hmn : (m == n) with
      | false => rfl
      | true =>
        have : m = n := by simpa using hmn
        subst this
        rw [hn] at hm
        cases hm
    simp [List.lookup_cons, hne, hm]

theorem Interner_internName_wf (c : Interner) (n : UnicodeString) (hc : c.WF) :
    (c.internName n).2.WF := by
  unfold Interner.internName
  cases hn : c.name_to_id.lookup n with
  | some x => simpa using hc
  | none =>
    obtain ⟨hpos, hall⟩ := hc
    refine ⟨by simp, ?_⟩
    intro m h hm
    simp only [List.lookup_cons] at hm
    cases hmn : (m == n) with
    | true =>
      have hmn' : m = n := by simpa using hmn
      simp only [hmn, Option.some.injEq] at hm
      subst hm hmn'
      refine ⟨Nat.pos_iff_ne_zero.1 hpos, ?_⟩
      simp
    | false =>
      simp only [hmn] at hm
      obtain ⟨h0, hget⟩ := hall m h hm
      refine ⟨h0, ?_⟩
      have hlt : h.i < c.id_to_name.length := by
        by_contra hge
        rw [List.getElem?_eq_none (not_lt.1 hge)] at hget
        cases hget
      simp only
      rw [List.getElem?_append_left hlt]
      exact hget

theorem Interner_run_append (c : Interner) (ns : List UnicodeString) (n : UnicodeString) :
    c.run (ns ++ [n]) = ((c.run ns).internName n).2 := by
  simp [Interner.run, List.foldl_append]

theorem Interner_run_wf (ns : List UnicodeString) :
    ∀ c : Interner, c.WF → (c.run ns).WF := by
  induction ns with
  | nil => intro c hc; exact hc
  | cons n ns ih =>
    intro c hc
    exact ih _ (Interner_internName_wf c n hc)

theorem Interner_run_keeps (ns : List UnicodeString) (m : UnicodeString) (h : string_ref) :
    ∀ c : Interner, c.name_to_id.lookup m = some h →
      (c.run ns).name_to_id.lookup m = some h := by
  induction ns with
  | nil => intro c hc; exact hc
  | cons n ns ih =>
    intro c hc
    exact ih _ (Interner_internName_keeps c n m h hc)

theorem Interner_internName_of_bound (c : Interner) (n : UnicodeString) (h : string_ref)
    (hn : c.name_to_id.lookup n = some h) : c.internName n = (h, c) := by
  unfold Interner.internName
  rw [hn]

theorem Interner_run_count (ns : List UnicodeString) :
    (Interner.init.run ns).id_to_name.length = ns.dedup.length + 1 ∧
    ∀ n, (Interner.init.run ns).name_to_id.lookup n = none ↔ n ∉ ns := by
  induction ns using List.reverseRecOn with
  | nil => simp [Interner.run, Interner.init]
  | append_singleton ns a ih =>
    obtain ⟨ihlen, ihmem⟩ := ih
    rw [Interner_run_append]
    cases ha : (Interner.init.run ns).name_to_id.lookup a with
    | some x =>
      have hmem : a ∈ ns := by
        by_contra hnot
        rw [(ihmem a).2 hnot] at ha
        cases ha
      rw [Interner_internName_of_bound _ a x ha]
      refine ⟨?_, ?_⟩
      · rw [ihlen, ← List.card_toFinset, ← List.card_toFinset]
        congr 2
        ext z
        simp only [List.mem_toFinset, List.mem_append, List.mem_singleton]
        constructor
        · exact Or.inl
        · rintro (h | rfl)
          · exact h
          · exact hmem
      · intro n
        rw [ihmem n]
        simp only [List.mem_append, List.mem_singleton, not_or]
        constructor
        · intro h
          exact ⟨h, fun hna => h (hna ▸ hmem)⟩
        · exact fun h => h.1
    | none =>
      have hnot : a ∉ ns := (ihmem a).1 ha
      unfold Interner.internName
      simp only [ha]
      refine ⟨?_, ?_⟩
      · rw [List.length_append, ihlen, ← List.card_toFinset, ← List.card_toFinset,
          List.toFinset_append]
        simp only [List.length_singleton, List.toFinset_cons, List.toFinset_nil]
        rw [Finset.card_union_of_disjoint]
        · simp
        · simp [hnot]
      · intro n
        simp only [List.lookup_cons, List.mem_append, List.mem_singleton, not_or]
        cases hna : (n == a) with
        | true =>
          have : n = a := by simpa using hna
          simp [this]
        | false =>
          have hne : n ≠ a := by simpa using hna
          simp [ihmem n, hne]

/-! ## Facts about fragments and their accepted pairings -/

namespace Transducer

theorem isPath_mono (t t' : Transducer) (h : ∀ e, e ∈ t.transitions → e ∈ t'.transitions) :
    ∀ (es : List Edge) (s d : Nat), isPath t s es d = true → isPath t' s es d = true := by
  intro es
  induction es with
  | nil => intro s d hp; exact hp
  | cons e es ih =>
    intro s d hp
    simp only [isPath, Bool.and_eq_true, decide_eq_true_eq] at hp ⊢
    exact ⟨⟨h e hp.1.1, hp.1.2⟩, ih _ _ hp.2⟩

theorem isPath_append (t : Transducer) :
    ∀ (es₁ es₂ : List Edge) (s m d : Nat),
      isPath t s es₁ m = true → isPath t m es₂ d = true →
        isPath t s (es₁ ++ es₂) d = true := by
  intro es₁
  induction es₁ with
  | nil =>
    intro es₂ s m d h1 h2
    simp only [isPath, beq_iff_eq] at h1
    subst h1
    exact h2
  | cons e es ih =>
    intro es₂ s m d h1 h2
    simp only [List.cons_append, isPath, Bool.and_eq_true, decide_eq_true_eq] at h1 ⊢
    exact ⟨h1.1, ih es₂ _ m d h1.2 h2⟩

theorem yield_nil : yield [] = Pairing.nil := rfl

theorem yield_append (es₁ es₂ : List Edge) :
    yield (es₁ ++ es₂) = Pairing.append (yield es₁) (yield es₂) := by
  simp [yield, Pairing.append, List.filterMap_append]

theorem yield_epsilon (s d : Nat) (es : List Edge) :
    yield (epsilonEdge s d :: es) = yield es := by
  simp [yield, epsilonEdge, List.filterMap_cons]

theorem append_nil_right (p : Pairing) : Pairing.append p Pairing.nil = p := by
  simp [Pairing.append, Pairing.nil]

theorem append_eq_nil (p q : Pairing) (h : Pairing.append p q = Pairing.nil) :
    p = Pairing.nil := by
  obtain ⟨p1, p2⟩ := p
  simp only [Pairing.append, Pairing.nil, Prod.mk.injEq, List.append_eq_nil] at h
  simp [Pairing.nil, h.1.1, h.2.1]

/-- With a back-edge from state `x` to state `i` added, a chain of nonempty
pairings through the original fragment can be spelled: every sequence of
original entry-to-exit chains can be joined. -/
theorem accepts_concat_of_backedge (t t' : Transducer)
    (hi : t'.initial = t.initial) (hf : t'.final = t.final)
    (hmono : ∀ e, e ∈ t.transitions → e ∈ t'.transitions)
    (hback : epsilonEdge t.final t.initial ∈ t'.transitions) :
    ∀ (p : Pairing) (ps : List Pairing), (∀ q, q ∈ p :: ps → accepts t q) →
      accepts t' (Pairing.concat (p :: ps)) := by
  intro p ps
  induction ps generalizing p with
  | nil =>
    intro h
    obtain ⟨es, hp, hy⟩ := h p (List.mem_cons_self _ _)
    refine ⟨es, ?_, ?_⟩
    · rw [hi, hf]
      exact isPath_mono t t' hmono es _ _ hp
    · simp only [Pairing.concat]
      rw [append_nil_right]
      exact hy
  | cons q ps ih =>
    intro h
    obtain ⟨es, hp, hy⟩ := h p (List.mem_cons_self _ _)
    obtain ⟨es', hp', hy'⟩ := ih q (fun r hr => h r (List.mem_cons_of_mem _ hr))
    refine ⟨es ++ epsilonEdge t.final t.initial :: es', ?_, ?_⟩
    · rw [hi, hf]
      apply isPath_append t' es _ _ t.final _ (isPath_mono t t' hmono es _ _ hp)
      simp only [isPath, Bool.and_eq_true, decide_eq_true_eq]
      refine ⟨⟨hback, ?_⟩, ?_⟩
      · simp [epsilonEdge]
      · rw [hi, hf] at hp'
        exact hp'
    · rw [yield_append, yield_epsilon, hy, hy']
      rfl

/-- In the fragment with only a back-edge added, every chain that reaches the
exit state starts with a chain of the original fragment to the exit state,
and either ends there or goes on through the back-edge. -/
theorem backedge_split (t : Transducer) :
    ∀ (es : List Edge) (s : Nat),
      isPath (t.linkStates (epsilonEdge t.final t.initial)) s es t.final = true →
      ∃ es₁ : List Edge, isPath t s es₁ t.final = true ∧
        (es = es₁ ∨ ∃ rest, es = es₁ ++ epsilonEdge t.final t.initial :: rest ∧
          rest.length < es.length ∧
          isPath (t.linkStates (epsilonEdge t.final t.initial)) t.initial rest t.final
            = true) := by
  intro es
  induction es with
  | nil =>
    intro s h
    exact ⟨[], h, Or.inl rfl⟩
  | cons e es ih =>
    intro s h
    simp only [isPath, Bool.and_eq_true, decide_eq_true_eq, linkStates, List.mem_cons,
      beq_iff_eq] at h
    obtain ⟨⟨hmem, hsrc⟩, hrest⟩ := h
    rcases hmem with rfl | hmem
    · refine ⟨[], ?_, Or.inr ⟨es, rfl, by simp, hrest⟩⟩
      simp only [isPath, beq_iff_eq]
      exact hsrc.symm
    · obtain ⟨es₁, h1, h2⟩ := ih e.dst hrest
      refine ⟨e :: es₁, ?_, ?_⟩
      · simp only [isPath, Bool.and_eq_true, decide_eq_true_eq, beq_iff_eq]
        exact ⟨⟨hmem, hsrc⟩, h1⟩
      · rcases h2 with rfl | ⟨rest, hes, hlen, hp⟩
        · exact Or.inl rfl
        · refine Or.inr ⟨rest, by rw [hes]; rfl, ?_, hp⟩
          simp only [List.length_cons]
          omega

theorem accepts_plus_split (t : Transducer) :
    ∀ (k : Nat) (es : List Edge), es.length ≤ k →
      isPath (t.linkStates (epsilonEdge t.final t.initial)) t.initial es t.final = true →
      ∃ (p : Pairing) (ps : List Pairing), (∀ q, q ∈ p :: ps → accepts t q) ∧
        Pairing.concat (p :: ps) = yield es := by
  intro k
  induction k with
  | zero =>
    intro es hk hp
    obtain ⟨es₁, h1, h2⟩ := backedge_split t es t.initial hp
    rcases h2 with rfl | ⟨rest, _, hlen, _⟩
    · refine ⟨yield es, [], ?_, ?_⟩
      · intro q hq
        rw [List.mem_singleton] at hq
        subst hq
        exact ⟨es, h1, rfl⟩
      · simp only [Pairing.concat]
        exact append_nil_right _
    · omega
  | succ k ih =>
    intro es hk hp
    obtain ⟨es₁, h1, h2⟩ := backedge_split t es t.initial hp
    rcases h2 with rfl | ⟨rest, hes, hlen, hrest⟩
    · refine ⟨yield es, [], ?_, ?_⟩
      · intro q hq
        rw [List.mem_singleton] at hq
        subst hq
        exact ⟨es, h1, rfl⟩
      · simp only [Pairing.concat]
        exact append_nil_right _
    · obtain ⟨p, ps, hall, hcat⟩ := ih rest (by omega) hrest
      refine ⟨yield es₁, p :: ps, ?_, ?_⟩
      · intro q hq
        rcases List.mem_cons.1 hq with rfl | hq
        · exact ⟨es₁, h1, rfl⟩
        · exact hall q hq
      · rw [hes, yield_append, yield_epsilon, ← hcat]
        rfl

end Transducer

/-! ## The claims -/

/-- C1: for every two pattern elements `a` and `b`, `a == b` holds iff neither
`a < b` nor `b < a` holds, exactly one of `a < b`, `a == b`, `b < a` is true,
`==` holds iff `left`, `right`, `mode`, `tags` and `negtags` all match, and a
map keyed by pattern elements identifies two keys (neither smaller than the
other) exactly when they are structurally identical. -/
theorem pattern_element_eq_iff_unordered (a b : pattern_element_t) :
    (a.eq b = true ↔ (a.lt b = false ∧ b.lt a = false)) ∧
    ((a.lt b = true ∧ a.eq b = false ∧ b.lt a = false) ∨
      (a.lt b = false ∧ a.eq b = true ∧ b.lt a = false) ∨
      (a.lt b = false ∧ a.eq b = false ∧ b.lt a = true)) ∧
    (a.eq b = true ↔
      (a.left = b.left ∧ a.right = b.right ∧ a.mode = b.mode ∧
        a.tags = b.tags ∧ a.negtags = b.negtags)) ∧
    (sameKey a b = true ↔ a = b) := by
  have hne_of_lt : ∀ x y : pattern_element_t, x.lt y = true → x.eq y = false := by
    intro x y h
    cases he : x.eq y with
    | false => rfl
    | true =>
      have hxy := (pattern_element_t_eq_iff x y).1 he
      subst hxy
      rw [pattern_element_t_lt_irrefl] at h
      cases h
  have hsymm : ∀ x y : pattern_element_t, x.eq y = false → y.eq x = false := by
    intro x y h
    cases he : y.eq x with
    | false => rfl
    | true =>
      have hxy := (pattern_element_t_eq_iff y x).1 he
      subst hxy
      rw [he] at h
      cases h
  have hone : (a.lt b = true ∧ a.eq b = false ∧ b.lt a = false) ∨
      (a.lt b = false ∧ a.eq b = true ∧ b.lt a = false) ∨
      (a.lt b = false ∧ a.eq b = false ∧ b.lt a = true) := by
    rcases pattern_element_t_lt_trichotomy a b with h | h | h
    · exact Or.inl ⟨h, hne_of_lt a b h, pattern_element_t_lt_asymm a b h⟩
    · subst h
      exact Or.inr (Or.inl ⟨pattern_element_t_lt_irrefl a,
        (pattern_element_t_eq_iff a a).2 rfl, pattern_element_t_lt_irrefl a⟩)
    · exact Or.inr (Or.inr ⟨pattern_element_t_lt_asymm b a h,
        hsymm b a (hne_of_lt b a h), h⟩)
  have hfirst : a.eq b = true ↔ (a.lt b = false ∧ b.lt a = false) := by
    rcases hone with ⟨h1, h2, h3⟩ | ⟨h1, h2, h3⟩ | ⟨h1, h2, h3⟩ <;> simp [h1, h2, h3]
  refine ⟨hfirst, hone, ?_, ?_⟩
  · rw [pattern_element_t_eq_iff]
    constructor
    · rintro rfl
      exact ⟨rfl, rfl, rfl, rfl, rfl⟩
    · rintro ⟨h1, h2, h3, h4, h5⟩
      cases a; cases b
      simp only at h1 h2 h3 h4 h5
      subst h1 h2 h3 h4 h5
      rfl
  · rw [← pattern_element_t_eq_iff, hfirst]
    unfold sameKey
    cases a.lt b <;> cases b.lt a <;> simp

/-- C2: `pattern_element_t::operator<` is a strict ordering: it is
irreflexive and transitive, and it is the lexicographic comparison of the
tuples `(left, right, mode, tags, negtags)`, the tag sets compared as
ascending sequences. -/
theorem pattern_element_lt_strict_order (a b c : pattern_element_t) :
    a.lt a = false ∧
    (a.lt b = true → b.lt c = true → a.lt c = true) ∧
    (a.lt b = true ↔ keyLt a.key b.key) :=
  ⟨pattern_element_t_lt_irrefl a, pattern_element_t_lt_trans a b c,
    pattern_element_t_lt_iff_key a b⟩

theorem pattern_element_lt_strict_order_witness :
    (sampleElement 1 1 RepeatMode.Normal [3, 4] [5]).lt
        (sampleElement 1 1 RepeatMode.Normal [3, 4] [5, 6]) = true ∧
    (sampleElement 1 1 RepeatMode.Normal [3, 4] [5, 6]).lt
        (sampleElement 1 2 RepeatMode.Normal [] []) = true ∧
    (sampleElement 1 1 RepeatMode.Normal [3, 4] [5]).lt
        (sampleElement 1 2 RepeatMode.Normal [] []) = true :=
  ⟨by decide, by decide,
    (pattern_element_lt_strict_order (sampleElement 1 1 RepeatMode.Normal [3, 4] [5])
      (sampleElement 1 1 RepeatMode.Normal [3, 4] [5, 6])
      (sampleElement 1 2 RepeatMode.Normal [] [])).2.1 (by decide) (by decide)⟩


/-- C3: for every pattern element `E` and every lexicon segment `seg`,
`E.compatible(seg)` is true iff every tag in `E.tags` is in `seg.tags` and no
tag in `E.negtags` is in `seg.tags`. -/
theorem compatible_iff_tags_admitted (E : pattern_element_t) (seg : lex_seg_t) :
    E.compatible seg = true ↔
      (∀ t, t ∈ E.tags → t ∈ seg.tags) ∧ (∀ t, t ∈ E.negtags → t ∉ seg.tags) := by
  unfold pattern_element_t.compatible
  rw [Bool.and_eq_true, subset_iff, intersectset_empty_iff]

/-- C4: two tokens are `==` iff their names are `==` and their parts are
equal; `a < b` iff `(a.name.i, a.part)` is lexicographically smaller than
`(b.name.i, b.part)`; and exactly one of `a < b`, `a == b`, `b < a` holds. -/
theorem token_compare (a b : token_t) :
    (a.eq b = true ↔ (a.name.eq b.name = true ∧ a.part = b.part)) ∧
    (a.lt b = true ↔ Prod.Lex (· < ·) (· < ·) (a.name.i, a.part) (b.name.i, b.part)) ∧
    ((a.lt b = true ∧ a.eq b = false ∧ b.lt a = false) ∨
      (a.lt b = false ∧ a.eq b = true ∧ b.lt a = false) ∨
      (a.lt b = false ∧ a.eq b = false ∧ b.lt a = true)) := by
  refine ⟨?_, ?_, ?_⟩
  · unfold token_t.eq
    rw [Bool.and_eq_true, beq_iff_eq]
  · rw [token_t_lt_iff, Prod.lex_def]
  · have hl := token_t_lt_iff a b
    have hr := token_t_lt_iff b a
    have he := token_t_eq_iff_fields a b
    rcases Nat.lt_trichotomy a.name.i b.name.i with h | h | h
    · have h1 : a.lt b = true := hl.2 (Or.inl h)
      have h2 : a.eq b = false := by
        rw [← Bool.not_eq_true, he]; omega
      have h3 : b.lt a = false := by
        rw [← Bool.not_eq_true, hr]; omega
      exact Or.inl ⟨h1, h2, h3⟩
    · rcases Nat.lt_trichotomy a.part b.part with h' | h' | h'
      · have h1 : a.lt b = true := hl.2 (Or.inr ⟨h, h'⟩)
        have h2 : a.eq b = false := by
          rw [← Bool.not_eq_true, he]; omega
        have h3 : b.lt a = false := by
          rw [← Bool.not_eq_true, hr]; omega
        exact Or.inl ⟨h1, h2, h3⟩
      · have h1 : a.lt b = false := by
          rw [← Bool.not_eq_true, hl]; omega
        have h2 : a.eq b = true := he.2 ⟨h, h'⟩
        have h3 : b.lt a = false := by
          rw [← Bool.not_eq_true, hr]; omega
        exact Or.inr (Or.inl ⟨h1, h2, h3⟩)
      · have h1 : a.lt b = false := by
          rw [← Bool.not_eq_true, hl]; omega
        have h2 : a.eq b = false := by
          rw [← Bool.not_eq_true, he]; omega
        have h3 : b.lt a = true := hr.2 (Or.inr ⟨h.symm, h'⟩)
        exact Or.inr (Or.inr ⟨h1, h2, h3⟩)
    · have h1 : a.lt b = false := by
        rw [← Bool.not_eq_true, hl]; omega
      have h2 : a.eq b = false := by
        rw [← Bool.not_eq_true, he]; omega
      have h3 : b.lt a = true := hr.2 (Or.inl h)
      exact Or.inr (Or.inr ⟨h1, h2, h3⟩)

/-- C5: for handles `h` and `g`: `h == g` iff `h.i == g.i`; `h < g` iff
`h.i < g.i`; `h != g` is the negation of `h == g`; `h.empty()` iff `h.i == 0`;
`h.valid()` iff `h.i != 0`, so `valid()` is the negation of `empty()`;
`operator!` returns `empty()`; and the default-constructed handle has
`i == 0`, is empty and is not valid. -/
theorem string_ref_operators (h g : string_ref) :
    (h.eq g = true ↔ h.i = g.i) ∧
    (h.lt g = true ↔ h.i < g.i) ∧
    (h.ne g = !(h.eq g)) ∧
    (h.empty = true ↔ h.i = 0) ∧
    (h.valid = true ↔ h.i ≠ 0) ∧
    (h.valid = !h.empty) ∧
    (h.not = h.empty) ∧
    (string_ref.default.i = 0 ∧ string_ref.default.empty = true ∧
      string_ref.default.valid = false) := by
  refine ⟨?_, string_ref_lt_iff h g, rfl, ?_, ?_, ?_, rfl, rfl, rfl, rfl⟩
  · unfold string_ref.eq
    exact beq_iff_eq
  · unfold string_ref.empty
    exact beq_iff_eq
  · unfold string_ref.valid
    exact bne_iff_ne
  · unfold string_ref.valid string_ref.empty
    rfl

/-- C6: the `RepeatMode` values encode the two independent bit flags
`Optional` (1) and `Repeated` (2): `Normal` has neither bit, `Question` has
exactly the `Optional` bit, `Plus` exactly the `Repeated` bit,
`Star == (Optional | Repeated)` has both; the four modes are pairwise
distinct and every combination of the two flags is exactly one mode. -/
theorem repeat_mode_flags :
    (RepeatMode.Optional.val = 1 ∧ RepeatMode.Repeated.val = 2 ∧
      RepeatMode.Optional.val &&& RepeatMode.Repeated.val = 0) ∧
    (RepeatMode.Normal.val = 0 ∧ RepeatMode.Normal.has RepeatMode.Optional = false ∧
      RepeatMode.Normal.has RepeatMode.Repeated = false) ∧
    (RepeatMode.Question = RepeatMode.Optional ∧
      RepeatMode.Question.has RepeatMode.Optional = true ∧
      RepeatMode.Question.has RepeatMode.Repeated = false) ∧
    (RepeatMode.Plus = RepeatMode.Repeated ∧
      RepeatMode.Plus.has RepeatMode.Optional = false ∧
      RepeatMode.Plus.has RepeatMode.Repeated = true) ∧
    (RepeatMode.Star = RepeatMode.Optional.bitor RepeatMode.Repeated ∧
      RepeatMode.Star.has RepeatMode.Optional = true ∧
      RepeatMode.Star.has RepeatMode.Repeated = true) ∧
    RepeatMode.modes.Nodup ∧
    (∀ o r : Bool, ∃! m, m ∈ RepeatMode.modes ∧
      m.has RepeatMode.Optional = o ∧ m.has RepeatMode.Repeated = r) := by
  refine ⟨by decide, by decide, by decide, by decide, by decide, by decide, ?_⟩
  have hmem : ∀ m, m ∈ RepeatMode.modes →
      m = RepeatMode.Normal ∨ m = RepeatMode.Question ∨ m = RepeatMode.Plus ∨
        m = RepeatMode.Star := by
    intro m hm
    simpa [RepeatMode.modes] using hm
  intro o r
  cases o <;> cases r
  · refine ⟨RepeatMode.Normal, ⟨by decide, by decide, by decide⟩, ?_⟩
    rintro m ⟨hm, h1, h2⟩
    rcases hmem m hm with rfl | rfl | rfl | rfl
    · rfl
    · exact absurd h1 (by decide)
    · exact absurd h2 (by decide)
    · exact absurd h1 (by decide)
  · refine ⟨RepeatMode.Plus, ⟨by decide, by decide, by decide⟩, ?_⟩
    rintro m ⟨hm, h1, h2⟩
    rcases hmem m hm with rfl | rfl | rfl | rfl
    · exact absurd h2 (by decide)
    · exact absurd h1 (by decide)
    · rfl
    · exact absurd h1 (by decide)
  · refine ⟨RepeatMode.Question, ⟨by decide, by decide, by decide⟩, ?_⟩
    rintro m ⟨hm, h1, h2⟩
    rcases hmem m hm with rfl | rfl | rfl | rfl
    · exact absurd h1 (by decide)
    · rfl
    · exact absurd h1 (by decide)
    · exact absurd h2 (by decide)
  · refine ⟨RepeatMode.Star, ⟨by decide, by decide, by decide⟩, ?_⟩
    rintro m ⟨hm, h1, h2⟩
    rcases hmem m hm with rfl | rfl | rfl | rfl
    · exact absurd h1 (by decide)
    · exact absurd h2 (by decide)
    · exact absurd h1 (by decide)
    · rfl


/-- C7: combining tags only restricts. After `E.addTags(F)` and
`E.addNegTags(F)` the required tags are the union of those of `E` and `F`, the
forbidden tags are the union of those of `E` and `F`, and every segment tag
set `S` admitted by the combined element (`subset` of its tags in `S` is true
and `intersectset` of its negtags with `S` is empty) is admitted by `E`. -/
theorem addTags_addNegTags_restrict (E F : pattern_element_t) (S : set string_ref) :
    (∀ t, t ∈ ((E.addTags F).addNegTags F).tags ↔ t ∈ E.tags ∨ t ∈ F.tags) ∧
    (∀ t, t ∈ ((E.addTags F).addNegTags F).negtags ↔ t ∈ E.negtags ∨ t ∈ F.negtags) ∧
    ((E.addTags F).addNegTags F).tags = unionset E.tags F.tags ∧
    ((E.addTags F).addNegTags F).negtags = unionset E.negtags F.negtags ∧
    (subset ((E.addTags F).addNegTags F).tags S = true ∧
        (intersectset ((E.addTags F).addNegTags F).negtags S).empty = true →
      subset E.tags S = true ∧ (intersectset E.negtags S).empty = true) := by
  have ht : ∀ t, t ∈ ((E.addTags F).addNegTags F).tags ↔ t ∈ E.tags ∨ t ∈ F.tags := by
    intro t
    exact set_mem_insertRange t F.tags.elems E.tags
  have hn : ∀ t, t ∈ ((E.addTags F).addNegTags F).negtags ↔
      t ∈ E.negtags ∨ t ∈ F.negtags := by
    intro t
    exact set_mem_insertRange t F.negtags.elems E.negtags
  refine ⟨ht, hn, rfl, rfl, ?_⟩
  rintro ⟨h1, h2⟩
  rw [subset_iff] at h1 ⊢
  rw [intersectset_empty_iff] at h2 ⊢
  exact ⟨fun x hx => h1 x ((ht x).2 (Or.inl hx)), fun x hx => h2 x ((hn x).2 (Or.inl hx))⟩

theorem addTags_addNegTags_restrict_witness :
    subset (((sampleElement 1 1 RepeatMode.Normal [3] [5]).addTags
        (sampleElement 2 1 RepeatMode.Plus [4] [6])).addNegTags
        (sampleElement 2 1 RepeatMode.Plus [4] [6])).tags (tagSet [3, 4, 7]) = true ∧
    (intersectset (((sampleElement 1 1 RepeatMode.Normal [3] [5]).addTags
        (sampleElement 2 1 RepeatMode.Plus [4] [6])).addNegTags
        (sampleElement 2 1 RepeatMode.Plus [4] [6])).negtags (tagSet [3, 4, 7])).empty = true ∧
    subset (sampleElement 1 1 RepeatMode.Normal [3] [5]).tags (tagSet [3, 4, 7]) = true ∧
    (intersectset (sampleElement 1 1 RepeatMode.Normal [3] [5]).negtags
        (tagSet [3, 4, 7])).empty = true :=
  ⟨by decide, by decide,
    (addTags_addNegTags_restrict (sampleElement 1 1 RepeatMode.Normal [3] [5])
      (sampleElement 2 1 RepeatMode.Plus [4] [6]) (tagSet [3, 4, 7])).2.2.2.2
      ⟨by decide, by decide⟩⟩

/-- C8: a pattern element whose required and forbidden tag sets share a tag
matches nothing: when some tag `x` is in both `tags` and `negtags`, no segment
tag set `S` has `subset(tags, S)` true and `intersectset(negtags, S)` empty. -/
theorem conflicting_tags_match_nothing (tags negtags S : set string_ref) (x : string_ref)
    (hx : x ∈ tags) (hx' : x ∈ negtags) :
    ¬ (subset tags S = true ∧ (intersectset negtags S).empty = true) := by
  rintro ⟨h1, h2⟩
  rw [subset_iff] at h1
  rw [intersectset_empty_iff] at h2
  exact h2 x hx' (h1 x hx)

theorem conflicting_tags_match_nothing_witness :
    (⟨4⟩ : string_ref) ∈ tagSet [3, 4] ∧ (⟨4⟩ : string_ref) ∈ tagSet [4, 9] ∧
    ¬ (subset (tagSet [3, 4]) (tagSet [3, 4, 5]) = true ∧
        (intersectset (tagSet [4, 9]) (tagSet [3, 4, 5])).empty = true) :=
  ⟨by decide, by decide,
    conflicting_tags_match_nothing (tagSet [3, 4]) (tagSet [4, 9]) (tagSet [3, 4, 5]) ⟨4⟩
      (by decide) (by decide)⟩


/-- C9: interning round-trips. After any sequence `ns` of `internName` calls,
interning a name `n` and then, after any further calls `ms`, interning it
again returns the same handle; the handle is non-zero; a different name `m`
gets a different handle; a name not interned before gets the next integer
(one more than the number of distinct names interned so far); and `name`
resolves the handle back to `n`. -/
theorem intern_round_trip (ns ms : List UnicodeString) (n m : UnicodeString) :
    ((((Interner.init.run ns).internName n).2.run ms).internName n).1 =
        ((Interner.init.run ns).internName n).1 ∧
    ((Interner.init.run ns).internName n).1.i ≠ 0 ∧
    (n ≠ m →
      ((((Interner.init.run ns).internName n).2.run ms).internName m).1 ≠
        ((Interner.init.run ns).internName n).1) ∧
    (n ∉ ns → ((Interner.init.run ns).internName n).1.i = ns.dedup.length + 1) ∧
    (((Interner.init.run ns).internName n).2.run ms).name
        ((Interner.init.run ns).internName n).1 = some n := by
  have hc : (Interner.init.run ns).WF := Interner_run_wf ns _ Interner_wf_init
  have hc1 : ((Interner.init.run ns).internName n).2.WF := Interner_internName_wf _ n hc
  have hb1 := Interner_internName_bound (Interner.init.run ns) n
  have hc2 : (((Interner.init.run ns).internName n).2.run ms).WF :=
    Interner_run_wf ms _ hc1
  have hb2 := Interner_run_keeps ms n _ _ hb1
  refine ⟨?_, (hc1.2 n _ hb1).1, ?_, ?_, (hc2.2 n _ hb2).2⟩
  · rw [Interner_internName_of_bound _ n _ hb2]
  · intro hnm heq
    have hc3 := Interner_internName_wf _ m hc2
    have hb3 := Interner_internName_bound
      (((Interner.init.run ns).internName n).2.run ms) m
    have hk3 := Interner_internName_keeps
      (((Interner.init.run ns).internName n).2.run ms) m n _ hb2
    rw [heq] at hb3
    have e1 := (hc3.2 n _ hk3).2
    have e2 := (hc3.2 m _ hb3).2
    rw [e1] at e2
    exact hnm (Option.some.inj e2)
  · intro hfresh
    have hcount := Interner_run_count ns
    have hnone := (hcount.2 n).2 hfresh
    unfold Interner.internName
    simp only [hnone]
    exact hcount.1

theorem intern_round_trip_witness :
    (((Interner.init.run [[97], [98]]).internName [99]).1.i = 3) ∧
    ((((Interner.init.run [[97], [98]]).internName [99]).2.run [[100], [97]]).internName
        [98]).1 ≠ ((Interner.init.run [[97], [98]]).internName [99]).1 :=
  ⟨(intern_round_trip [[97], [98]] [[100], [97]] [99] [98]).2.2.2.1 (by decide),
    (intern_round_trip [[97], [98]] [[100], [97]] [99] [98]).2.2.1 (by decide)⟩


/-- What every fragment, whatever its shape, accepts after `applyMode`, with
`P` the set of pairings it accepted before. Under `Normal` exactly `P`; under
`Question` at least every member of `P` and the empty pairing; under `Plus`
exactly the concatenations of one or more members of `P`; under `Star` at
least every concatenation of zero or more members of `P`. -/
theorem applyMode_lower_bounds (t : Transducer) :
    (∀ p, (t.applyMode RepeatMode.Normal).accepts p ↔ t.accepts p) ∧
    ((∀ p, t.accepts p → (t.applyMode RepeatMode.Question).accepts p) ∧
      (t.applyMode RepeatMode.Question).accepts Pairing.nil) ∧
    ((∀ p ps, (∀ q, q ∈ p :: ps → t.accepts q) →
        (t.applyMode RepeatMode.Plus).accepts (Pairing.concat (p :: ps))) ∧
      (∀ r, (t.applyMode RepeatMode.Plus).accepts r →
        ∃ p ps, (∀ q, q ∈ p :: ps → t.accepts q) ∧ Pairing.concat (p :: ps) = r) ∧
      ((t.applyMode RepeatMode.Plus).accepts Pairing.nil → t.accepts Pairing.nil)) ∧
    (∀ ps, (∀ q, q ∈ ps → t.accepts q) →
      (t.applyMode RepeatMode.Star).accepts (Pairing.concat ps)) := by
  have hN : t.applyMode RepeatMode.Normal = t := rfl
  have hQ : t.applyMode RepeatMode.Question =
      t.linkStates (Transducer.epsilonEdge t.initial t.final) := rfl
  have hP : t.applyMode RepeatMode.Plus =
      t.linkStates (Transducer.epsilonEdge t.final t.initial) := rfl
  have hS : t.applyMode RepeatMode.Star =
      (t.linkStates (Transducer.epsilonEdge t.initial t.final)).linkStates
        (Transducer.epsilonEdge t.final t.initial) := rfl
  have hsplit : ∀ r, (t.applyMode RepeatMode.Plus).accepts r →
      ∃ p ps, (∀ q, q ∈ p :: ps → t.accepts q) ∧ Pairing.concat (p :: ps) = r := by
    rintro r ⟨es, hp, hy⟩
    rw [hP] at hp
    obtain ⟨p, ps, hall, hcat⟩ := Transducer.accepts_plus_split t es.length es le_rfl hp
    exact ⟨p, ps, hall, hcat.trans hy⟩
  refine ⟨?_, ⟨?_, ?_⟩, ⟨?_, hsplit, ?_⟩, ?_⟩
  · intro p
    rw [hN]
  · rintro p ⟨es, hp, hy⟩
    rw [hQ]
    exact ⟨es, Transducer.isPath_mono t _ (fun e he => List.mem_cons_of_mem _ he) es _ _ hp, hy⟩
  · rw [hQ]
    refine ⟨[Transducer.epsilonEdge t.initial t.final], ?_, rfl⟩
    simp [Transducer.isPath, Transducer.linkStates, Transducer.epsilonEdge]
  · intro p ps hall
    rw [hP]
    exact Transducer.accepts_concat_of_backedge t
      (t.linkStates (Transducer.epsilonEdge t.final t.initial)) rfl rfl
      (fun e he => List.mem_cons_of_mem _ he) (List.mem_cons_self _ _) p ps hall
  · intro h
    obtain ⟨p, ps, hall, hcat⟩ := hsplit _ h
    have hp : p = Pairing.nil := Transducer.append_eq_nil p (Pairing.concat ps) hcat
    rw [← hp]
    exact hall p (List.mem_cons_self _ _)
  · intro ps hall
    rw [hS]
    cases ps with
    | nil =>
      refine ⟨[Transducer.epsilonEdge t.initial t.final], ?_, rfl⟩
      simp [Transducer.isPath, Transducer.linkStates, Transducer.epsilonEdge]
    | cons p ps =>
      exact Transducer.accepts_concat_of_backedge t
        ((t.linkStates (Transducer.epsilonEdge t.initial t.final)).linkStates
          (Transducer.epsilonEdge t.final t.initial)) rfl rfl
        (fun e he => List.mem_cons_of_mem _ (List.mem_cons_of_mem _ he))
        (List.mem_cons_self _ _) p ps hall

theorem sampleFragment_accepts : sampleFragment.accepts ([⟨1⟩], [⟨2⟩]) :=
  ⟨[⟨0, some ⟨1⟩, some ⟨2⟩, 1⟩], by decide, rfl⟩

theorem sampleFragment_rejects_nil : ¬ sampleFragment.accepts Pairing.nil := by
  rintro ⟨es, hp, hy⟩
  cases es with
  | nil => simp [Transducer.isPath, sampleFragment] at hp
  | cons e es =>
    simp only [Transducer.isPath, Bool.and_eq_true, decide_eq_true_eq, sampleFragment,
      List.mem_singleton] at hp
    obtain ⟨⟨he, _⟩, _⟩ := hp
    subst he
    simp [Transducer.yield, Pairing.nil] at hy

/-! ## Further facts about the set helpers -/

section MoreSetFacts
variable {α : Type} [LinearOrder α]

theorem set_ext_mem (a b : set α) (h : ∀ x, x ∈ a ↔ x ∈ b) : a = b := by
  apply set_ext_elems
  have hp : a.elems.Perm b.elems :=
    (List.perm_ext_iff_of_nodup (set_nodup a) (set_nodup b)).2 h
  exact List.eq_of_perm_of_sorted hp a.sorted b.sorted

theorem set_not_mem_nil (x : α) : x ∉ (set.nil : set α) := by
  intro h
  cases h

theorem set_eq_of_subset_of_size_le (xs ys : set α) (h : ∀ x, x ∈ xs → x ∈ ys)
    (hsz : ys.size ≤ xs.size) : xs = ys := by
  apply set_ext_elems
  have hsub : xs.elems.Subperm ys.elems := (set_nodup xs).subperm (fun x hx => h x hx)
  exact List.eq_of_perm_of_sorted (hsub.perm_of_length_le hsz) xs.sorted ys.sorted

theorem mem_subtract_fold (z : α) :
    ∀ (l : List α) (acc : set α),
      z ∈ l.foldl (fun acc y => acc.erase y) acc ↔ z ∈ acc ∧ z ∉ l := by
  intro l
  induction l with
  | nil => intro acc; simp
  | cons y l ih =>
    intro acc
    rw [List.foldl_cons, ih, set_mem_erase, List.mem_cons]
    tauto

theorem mem_subtractset (xs ys : set α) (z : α) :
    z ∈ subtractset xs ys ↔ z ∈ xs ∧ z ∉ ys :=
  mem_subtract_fold z ys.elems xs

theorem mem_unionset (xs ys : set α) (z : α) :
    z ∈ unionset xs ys ↔ z ∈ xs ∨ z ∈ ys :=
  set_mem_insertRange z ys.elems xs

end MoreSetFacts

/-! ## The claims on the set helpers and the tag mutators -/

/-- C11: for all finite sets `xs` and `ys`, `subset(xs, ys)` returns true iff
every element of `xs` is an element of `ys`; the early return on
`xs.size() > ys.size()` never rejects a genuine subset; and `subset(xs, xs)`
and `subset(empty, ys)` are true. -/
theorem subset_true_iff_all_mem {α : Type} [LinearOrder α] (xs ys : set α) :
    (subset xs ys = true ↔ ∀ x, x ∈ xs → x ∈ ys) ∧
    ((∀ x, x ∈ xs → x ∈ ys) → ¬ xs.size > ys.size) ∧
    subset xs xs = true ∧
    subset (set.nil : set α) ys = true := by
  refine ⟨subset_iff xs ys, ?_, ?_, ?_⟩
  · intro h
    exact not_lt.2 (set_size_le_of_subset xs ys h)
  · exact (subset_iff xs xs).2 (fun _ hx => hx)
  · exact (subset_iff set.nil ys).2 (fun x hx => absurd hx (set_not_mem_nil x))

theorem subset_true_iff_all_mem_witness :
    subset (tagSet [2, 5]) (tagSet [1, 2, 5]) = true ∧
    subset (tagSet [2, 5]) (tagSet [1, 2, 6]) = false ∧
    ¬ (tagSet [2, 5]).size > (tagSet [1, 2, 5]).size :=
  ⟨by decide, by decide,
    (subset_true_iff_all_mem (tagSet [2, 5]) (tagSet [1, 2, 5])).2.1
      ((subset_true_iff_all_mem (tagSet [2, 5]) (tagSet [1, 2, 5])).1.1 (by decide))⟩

/-- C12: for all finite sets `xs` and `ys`, `intersectset(xs, ys)` contains
exactly the elements that are in both `xs` and `ys`; hence it is empty iff
`xs` and `ys` are disjoint, and membership in `intersectset(xs, ys)` and in
`intersectset(ys, xs)` coincide. -/
theorem intersectset_mem_iff_both {α : Type} [LinearOrder α] (xs ys : set α) :
    (∀ z, z ∈ intersectset xs ys ↔ z ∈ xs ∧ z ∈ ys) ∧
    ((intersectset xs ys).empty = true ↔ ∀ x, x ∈ xs → x ∉ ys) ∧
    (∀ z, z ∈ intersectset xs ys ↔ z ∈ intersectset ys xs) := by
  refine ⟨mem_intersectset xs ys, intersectset_empty_iff xs ys, ?_⟩
  intro z
  rw [mem_intersectset, mem_intersectset]
  exact And.comm

/-- C14: the tag mutators touch only the tag fields. `addTags(F)` leaves
`left`, `right`, `mode` and `negtags` unchanged; `addNegTags(F)` leaves
`left`, `right`, `mode` and `tags` unchanged; `clearTags()` leaves `left`,
`right` and `mode` unchanged and makes both `tags` and `negtags` empty. -/
theorem tag_mutators_frame (E F : pattern_element_t) :
    ((E.addTags F).left = E.left ∧ (E.addTags F).right = E.right ∧
      (E.addTags F).mode = E.mode ∧ (E.addTags F).negtags = E.negtags) ∧
    ((E.addNegTags F).left = E.left ∧ (E.addNegTags F).right = E.right ∧
      (E.addNegTags F).mode = E.mode ∧ (E.addNegTags F).tags = E.tags) ∧
    (E.clearTags.left = E.left ∧ E.clearTags.right = E.right ∧
      E.clearTags.mode = E.mode ∧
      E.clearTags.tags.empty = true ∧ E.clearTags.negtags.empty = true ∧
      E.clearTags.tags.size = 0 ∧ E.clearTags.negtags.size = 0 ∧
      (∀ t, t ∉ E.clearTags.tags) ∧ (∀ t, t ∉ E.clearTags.negtags)) :=
  ⟨⟨rfl, rfl, rfl, rfl⟩, ⟨rfl, rfl, rfl, rfl⟩,
    ⟨rfl, rfl, rfl, rfl, rfl, rfl, rfl, fun t => set_not_mem_nil t,
      fun t => set_not_mem_nil t⟩⟩

/-- C15: for all finite sets `xs` and `ys`, `subset_strict(xs, ys)` returns
true iff `xs` is a subset of `ys` and `xs != ys`; the early return on
`xs.size() >= ys.size()` never rejects a proper subset; and
`subset_strict(xs, xs)` is false. -/
theorem subset_strict_iff_proper {α : Type} [LinearOrder α] (xs ys : set α) :
    (subset_strict xs ys = true ↔ (∀ x, x ∈ xs → x ∈ ys) ∧ xs.eq ys = false) ∧
    (subset_strict xs ys = true ↔ (∀ x, x ∈ xs → x ∈ ys) ∧ xs ≠ ys) ∧
    ((∀ x, x ∈ xs → x ∈ ys) ∧ xs ≠ ys → ¬ xs.size ≥ ys.size) ∧
    subset_strict xs xs = false := by
  have hne : xs.eq ys = false ↔ xs ≠ ys := by
    rw [← Bool.not_eq_true, set_eq_iff]
  have hsize : (∀ x, x ∈ xs → x ∈ ys) ∧ xs ≠ ys → ¬ xs.size ≥ ys.size := by
    rintro ⟨hsub, hneq⟩ hge
    exact hneq (set_eq_of_subset_of_size_le xs ys hsub hge)
  have hmain : subset_strict xs ys = true ↔ (∀ x, x ∈ xs → x ∈ ys) ∧ xs ≠ ys := by
    unfold subset_strict
    constructor
    · intro h
      split_ifs at h with hsz
      refine ⟨(subset_iff xs ys).1 h, ?_⟩
      rintro rfl
      exact hsz le_rfl
    · intro h
      rw [if_neg (hsize h)]
      exact (subset_iff xs ys).2 h.1
  refine ⟨?_, hmain, hsize, ?_⟩
  · rw [hmain, hne]
  · unfold subset_strict
    rw [if_pos (le_refl _)]

theorem subset_strict_iff_proper_witness :
    subset_strict (tagSet [2, 5]) (tagSet [1, 2, 5]) = true ∧
    subset_strict (tagSet [1, 2, 5]) (tagSet [1, 2, 5]) = false ∧
    ¬ (tagSet [2, 5]).size ≥ (tagSet [1, 2, 5]).size :=
  ⟨by decide, by decide,
    (subset_strict_iff_proper (tagSet [2, 5]) (tagSet [1, 2, 5])).2.2.1
      ((subset_strict_iff_proper (tagSet [2, 5]) (tagSet [1, 2, 5])).2.1.1 (by decide))⟩

/-- C16: the set helpers partition their first argument. `subtractset(xs, ys)`
contains exactly the elements of `xs` not in `ys`, it is disjoint from
`intersectset(xs, ys)`, and
`unionset(subtractset(xs, ys), intersectset(xs, ys)) == xs`. -/
theorem subtract_intersect_partition {α : Type} [LinearOrder α] (xs ys : set α) :
    (∀ z, z ∈ subtractset xs ys ↔ z ∈ xs ∧ z ∉ ys) ∧
    (∀ z, z ∈ subtractset xs ys → z ∉ intersectset xs ys) ∧
    (intersectset (subtractset xs ys) (intersectset xs ys)).empty = true ∧
    (unionset (subtractset xs ys) (intersectset xs ys)).eq xs = true ∧
    unionset (subtractset xs ys) (intersectset xs ys) = xs := by
  have hdis : ∀ z, z ∈ subtractset xs ys → z ∉ intersectset xs ys := by
    intro z hz hi
    exact ((mem_subtractset xs ys z).1 hz).2 ((mem_intersectset xs ys z).1 hi).2
  have hun : unionset (subtractset xs ys) (intersectset xs ys) = xs := by
    apply set_ext_mem
    intro z
    rw [mem_unionset, mem_subtractset, mem_intersectset]
    by_cases hz : z ∈ ys <;> simp [hz]
  refine ⟨mem_subtractset xs ys, hdis, ?_, ?_, hun⟩
  · exact (intersectset_empty_iff _ _).2 hdis
  · exact (set_eq_iff _ _).2 hun

/-- C17: `operator||` of `string_ref` is a first-valid choice. `(a || b)` is
`a` when `a` is valid and `b` otherwise; `(a || b)` is valid iff `a` is valid
or `b` is valid; the empty handle is a two-sided identity; and the operation
is associative. -/
theorem string_ref_or_first_valid (a b c : string_ref) :
    (a.or b = if a.valid then a else b) ∧
    ((a.or b).valid = true ↔ a.valid = true ∨ b.valid = true) ∧
    (string_ref.default.or a = a ∧ a.or string_ref.default = a) ∧
    ((string_ref.default.or a).eq a = true ∧ (a.or string_ref.default).eq a = true) ∧
    (∀ e : string_ref, e.empty = true → e.or a = a ∧ a.or e = a) ∧
    ((a.or b).or c = a.or (b.or c)) ∧
    (((a.or b).or c).eq (a.or (b.or c)) = true) := by
  have hid : ∀ e : string_ref, e.empty = true → e.or a = a ∧ a.or e = a := by
    intro e he
    have he0 : e.i = 0 := by simpa [string_ref.empty] using he
    have hed : e = ⟨0⟩ := string_ref_i_injective he0
    subst hed
    refine ⟨by simp [string_ref.or], ?_⟩
    by_cases ha : a.i = 0
    · have : a = ⟨0⟩ := string_ref_i_injective ha
      subst this
      simp [string_ref.or]
    · simp [string_ref.or, ha]
  have hassoc : (a.or b).or c = a.or (b.or c) := by
    by_cases ha : a.i = 0 <;> by_cases hb : b.i = 0 <;> simp [string_ref.or, ha, hb]
  have hd := hid string_ref.default rfl
  refine ⟨rfl, ?_, hd, ?_, hid, hassoc, ?_⟩
  · by_cases ha : a.i = 0 <;> simp [string_ref.or, string_ref.valid, ha]
  · exact ⟨(string_ref_eq_iff _ _).2 hd.1, (string_ref_eq_iff _ _).2 hd.2⟩
  · exact (string_ref_eq_iff _ _).2 hassoc


/-- C13, as stated, fails: the elements `E` (requires 3, forbids 7) and `F`
(requires 7, forbids 3) each have disjoint tag sets, yet after `E.addTags(F)`
tag 7 is both required and forbidden, and after `E.addNegTags(F)` tag 3 is. -/
theorem tag_mutators_break_disjointness :
    disjointTags (sampleElement 1 1 RepeatMode.Normal [3] [7]) ∧
    disjointTags (sampleElement 2 1 RepeatMode.Normal [7] [3]) ∧
    ¬ disjointTags ((sampleElement 1 1 RepeatMode.Normal [3] [7]).addTags
        (sampleElement 2 1 RepeatMode.Normal [7] [3])) ∧
    ¬ disjointTags ((sampleElement 1 1 RepeatMode.Normal [3] [7]).addNegTags
        (sampleElement 2 1 RepeatMode.Normal [7] [3])) := by
  decide

/-- C13, amended: for every element `E` whose required and forbidden tags are
disjoint and every element `F`, after `E.clearTags()` the two sets are
disjoint; after `E.addTags(F)` they are disjoint iff no tag of `F.tags` is in
`E.negtags`; after `E.addNegTags(F)` they are disjoint iff no tag of
`F.negtags` is in `E.tags`. -/
theorem tag_mutators_disjoint_iff (E F : pattern_element_t) (hE : disjointTags E) :
    disjointTags E.clearTags ∧
    (disjointTags (E.addTags F) ↔ ∀ t, t ∈ F.tags → t ∉ E.negtags) ∧
    (disjointTags (E.addNegTags F) ↔ ∀ t, t ∈ F.negtags → t ∉ E.tags) := by
  have hT : ∀ t, t ∈ (E.addTags F).tags ↔ t ∈ E.tags ∨ t ∈ F.tags :=
    fun t => set_mem_insertRange t F.tags.elems E.tags
  have hN : ∀ t, t ∈ (E.addNegTags F).negtags ↔ t ∈ E.negtags ∨ t ∈ F.negtags :=
    fun t => set_mem_insertRange t F.negtags.elems E.negtags
  refine ⟨?_, ?_, ?_⟩
  · intro t ht
    exact absurd ht (set_not_mem_nil t)
  · constructor
    · intro h t ht
      exact h t ((hT t).2 (Or.inr ht))
    · intro h t ht
      rcases (hT t).1 ht with h1 | h1
      · exact hE t h1
      · exact h t h1
  · constructor
    · intro h t ht hmem
      exact h t hmem ((hN t).2 (Or.inr ht))
    · intro h t ht hmem
      rcases (hN t).1 hmem with h1 | h1
      · exact hE t ht h1
      · exact h t h1 ht

theorem tag_mutators_disjoint_iff_witness :
    disjointTags (sampleElement 1 1 RepeatMode.Normal [3] [7]) ∧
    disjointTags ((sampleElement 1 1 RepeatMode.Normal [3] [7]).addTags
        (sampleElement 2 1 RepeatMode.Normal [4] [8])) ∧
    disjointTags ((sampleElement 1 1 RepeatMode.Normal [3] [7]).addNegTags
        (sampleElement 2 1 RepeatMode.Normal [4] [8])) ∧
    disjointTags (sampleElement 1 1 RepeatMode.Normal [3] [7]).clearTags :=
  ⟨by decide,
    (tag_mutators_disjoint_iff (sampleElement 1 1 RepeatMode.Normal [3] [7])
      (sampleElement 2 1 RepeatMode.Normal [4] [8]) (by decide)).2.1.2
      (fun t ht => (by decide : ∀ t ∈ (tagSet [4]).elems, t ∉ (tagSet [7]).elems) t ht),
    (tag_mutators_disjoint_iff (sampleElement 1 1 RepeatMode.Normal [3] [7])
      (sampleElement 2 1 RepeatMode.Normal [4] [8]) (by decide)).2.2.2
      (fun t ht => (by decide : ∀ t ∈ (tagSet [8]).elems, t ∉ (tagSet [3]).elems) t ht),
    (tag_mutators_disjoint_iff (sampleElement 1 1 RepeatMode.Normal [3] [7])
      (sampleElement 2 1 RepeatMode.Normal [4] [8]) (by decide)).1⟩

/-! ## Repeat modes on proper fragments -/

namespace Transducer

theorem yield_cons (e : Edge) (es : List Edge) :
    yield (e :: es) = Pairing.append (yield [e]) (yield es) :=
  yield_append [e] es

theorem append_nil_left (p : Pairing) : Pairing.append Pairing.nil p = p := by
  simp [Pairing.append, Pairing.nil]

theorem append_assoc (p q r : Pairing) :
    Pairing.append (Pairing.append p q) r = Pairing.append p (Pairing.append q r) := by
  simp [Pairing.append, List.append_assoc]

/-- In a proper fragment no chain of transitions starts at the exit state,
apart from the empty one. -/
theorem proper_path_from_final (t : Transducer) (hp : t.proper) (es : List Edge) (d : Nat)
    (h : isPath t t.final es d = true) : es = [] := by
  cases es with
  | nil => rfl
  | cons e es =>
    simp only [isPath, Bool.and_eq_true, decide_eq_true_eq, beq_iff_eq] at h
    exact absurd h.1.2 (hp e h.1.1).2

/-- With only the bypass added to a proper fragment, a chain to the exit
state is a chain of the fragment itself, or starts at the entry state and
spells nothing. -/
theorem bypass_split (t : Transducer) (hp : t.proper) :
    ∀ (es : List Edge) (s : Nat),
      isPath (t.linkStates (epsilonEdge t.initial t.final)) s es t.final = true →
      isPath t s es t.final = true ∨ (yield es = Pairing.nil ∧ s = t.initial) := by
  intro es
  induction es with
  | nil =>
    intro s h
    exact Or.inl h
  | cons e es ih =>
    intro s h
    simp only [isPath, Bool.and_eq_true, decide_eq_true_eq, linkStates, List.mem_cons,
      beq_iff_eq] at h
    obtain ⟨⟨hmem, hsrc⟩, hrest⟩ := h
    rcases hmem with rfl | hmem
    · right
      refine ⟨?_, hsrc.symm⟩
      rw [yield_epsilon]
      rcases ih _ hrest with h1 | ⟨h1, _⟩
      · rw [proper_path_from_final t hp es _ h1]
        rfl
      · exact h1
    · rcases ih _ hrest with h1 | ⟨_, h1⟩
      · left
        simp only [isPath, Bool.and_eq_true, decide_eq_true_eq, beq_iff_eq]
        exact ⟨⟨hmem, hsrc⟩, h1⟩
      · exact absurd h1 (hp e hmem).1

/-- With the bypass and the back-edge added to a proper fragment, a chain to
the exit state is a chain of the fragment to its exit state (or nothing, at
the entry state) followed by transitions that spell a concatenation of
pairings the fragment accepts. -/
theorem star_split (t : Transducer) (hp : t.proper) :
    ∀ (es : List Edge) (s : Nat),
      isPath ((t.linkStates (epsilonEdge t.initial t.final)).linkStates
          (epsilonEdge t.final t.initial)) s es t.final = true →
      ∃ (es₁ : List Edge) (ps : List Pairing),
        (isPath t s es₁ t.final = true ∨ (es₁ = [] ∧ s = t.initial)) ∧
        (∀ q, q ∈ ps → t.accepts q) ∧
        yield es = Pairing.append (yield es₁) (Pairing.concat ps) := by
  intro es
  induction es with
  | nil =>
    intro s h
    exact ⟨[], [], Or.inl h, fun q hq => absurd hq (List.not_mem_nil q), rfl⟩
  | cons e es ih =>
    intro s h
    simp only [isPath, Bool.and_eq_true, decide_eq_true_eq, linkStates, List.mem_cons,
      beq_iff_eq] at h
    obtain ⟨⟨hmem, hsrc⟩, hrest⟩ := h
    obtain ⟨es₁, ps, h1, hall, hy⟩ := ih _ hrest
    rcases hmem with rfl | rfl | hmem
    · -- the back-edge: we are at the exit state and go on from the entry state
      simp only [epsilonEdge] at hsrc hrest h1
      rcases h1 with h1 | ⟨h1, _⟩
      · refine ⟨[], yield es₁ :: ps, Or.inl ?_, ?_, ?_⟩
        · simp only [isPath, beq_iff_eq]
          exact hsrc.symm
        · intro q hq
          rcases List.mem_cons.1 hq with rfl | hq
          · exact ⟨es₁, h1, rfl⟩
          · exact hall q hq
        · rw [yield_epsilon, hy]
          exact (append_nil_left _).symm
      · refine ⟨[], ps, Or.inl ?_, hall, ?_⟩
        · simp only [isPath, beq_iff_eq]
          exact hsrc.symm
        · rw [yield_epsilon, hy, h1]
    · -- the bypass: we are at the entry state and go on from the exit state
      simp only [epsilonEdge] at hsrc hrest h1
      have hnil : es₁ = [] := by
        rcases h1 with h1 | ⟨h1, _⟩
        · exact proper_path_from_final t hp es₁ _ h1
        · exact h1
      refine ⟨[], ps, Or.inr ⟨rfl, hsrc.symm⟩, hall, ?_⟩
      rw [yield_epsilon, hy, hnil]
    · rcases h1 with h1 | ⟨_, h1⟩
      · refine ⟨e :: es₁, ps, Or.inl ?_, hall, ?_⟩
        · simp only [isPath, Bool.and_eq_true, decide_eq_true_eq, beq_iff_eq]
          exact ⟨⟨hmem, hsrc⟩, h1⟩
        · rw [yield_cons, hy, yield_cons e es₁, append_assoc]
      · exact absurd h1 (hp e hmem).1

end Transducer

theorem exitLoopFragment_accepts_head (q : Pairing) (h : exitLoopFragment.accepts q) :
    ∃ l, q.1 = ⟨1⟩ :: l := by
  obtain ⟨es, hp, hy⟩ := h
  cases es with
  | nil => simp [Transducer.isPath, exitLoopFragment] at hp
  | cons e es =>
    simp only [Transducer.isPath, Bool.and_eq_true, decide_eq_true_eq, exitLoopFragment,
      List.mem_cons, List.mem_singleton, List.not_mem_nil, or_false, beq_iff_eq] at hp
    obtain ⟨⟨he, hsrc⟩, _⟩ := hp
    rcases he with rfl | rfl
    · subst hy
      exact ⟨_, rfl⟩
    · simp at hsrc

theorem entryLoopFragment_path_has_one :
    ∀ (es : List Edge) (s : Nat),
      Transducer.isPath entryLoopFragment s es 1 = true → s = 0 →
        (⟨1⟩ : trans_sym_t) ∈ (Transducer.yield es).1 := by
  intro es
  induction es with
  | nil =>
    intro s hp hs
    subst hs
    simp [Transducer.isPath] at hp
  | cons e es ih =>
    intro s hp _
    simp only [Transducer.isPath, Bool.and_eq_true, decide_eq_true_eq, entryLoopFragment,
      List.mem_cons, List.mem_singleton, List.not_mem_nil, or_false, beq_iff_eq] at hp
    obtain ⟨⟨he, _⟩, hrest⟩ := hp
    rcases he with rfl | rfl
    · have := ih 0 hrest rfl
      simp only [Transducer.yield, List.filterMap_cons] at this ⊢
      exact List.mem_cons_of_mem _ this
    · simp only [Transducer.yield, List.filterMap_cons]
      exact List.mem_cons_self _ _

theorem entryLoopFragment_accepts_has_one (q : Pairing) (h : entryLoopFragment.accepts q) :
    (⟨1⟩ : trans_sym_t) ∈ q.1 := by
  obtain ⟨es, hp, hy⟩ := h
  subst hy
  exact entryLoopFragment_path_has_one es 0 hp rfl

end Lexd
